import Mathlib

/-!
Shallow embedding of the todo.txt task-record model from `src/todo.ts` and the
filter/sort engine from `src/cli.ts` (deno-todotxt).

Modelling conventions:
* JavaScript strings are modelled as `List Char`; a "line" is a `List Char`
  containing no `'\n'` (lines are produced by splitting on `'\n'`).
* The anchored regular expression `TODO_PAT` is modelled by an explicit
  backtracking matcher (`execTodoPat`): each optional group contributes an
  ordered list of alternatives (greedy `\s+` runs longest-first, then the
  group skipped), and the overall match is the first alternative whose
  continuation succeeds, exactly as a backtracking regex engine proceeds.
* The external `std/datetime` `parse`/`format` pair is modelled over civil
  calendar dates (`CivilDate`): `parse` reads the three numeric fields of a
  `yyyy-MM-dd` token and normalizes them exactly as the JS `Date` setters the
  library calls do — an out-of-range month folds into adjacent years by
  twelve-month arithmetic, an out-of-range day rolls through the calendar
  (`2020-02-31` parses as March 2, 2020 and `2020-01-40` as February 9,
  2020; the library performs no validity check) — and `format` prints the
  normalized components back, zero-padded.  Comparing JS `Date`s compares
  timestamps, which on normalized civil components is lexicographic
  comparison of (year, month, day); that is the `LinearOrder` on
  `CivilDate`.
* The external styling functions of `fmt/colors` are opaque rendering hooks;
  serialization is modelled for `color: false` (the canonical and aligned
  configurations), which is the only mode the specification's contracts
  quantify over.
-/

namespace TodoTxt

/-- Whitespace class of the JS `\s` escape, restricted to the ASCII range
(the repository's format only ever uses spaces and tabs as separators). -/
def wsChar (c : Char) : Bool :=
  c = ' ' || c = '\t' || c = '\n' || c = '\r' || c = '\x0b' || c = '\x0c'

/-- Characters matched by the JS `.` metacharacter: everything except the
ECMAScript line terminators LF, CR, U+2028 and U+2029. -/
def dotChar (c : Char) : Bool :=
  !(c = '\n' || c = '\r' || c = '\u2028' || c = '\u2029')

/-- ASCII digit, the JS `\d` class. -/
def digitChar (c : Char) : Bool :=
  '0' ≤ c && c ≤ '9'

/-- Uppercase ASCII letter, the priority class `[A-Z]`. -/
def upperChar (c : Char) : Bool :=
  'A' ≤ c && c ≤ 'Z'

/-- Length of the maximal whitespace prefix of `s`. -/
def wsCount (s : List Char) : Nat :=
  (s.takeWhile wsChar).length

/-- Alternatives of a greedy `\s+`: the nonempty whitespace prefixes of `s`
paired with the corresponding remainders, longest first.  Empty when `s` does
not start with whitespace (then `\s+` cannot match). -/
def wsSplits (s : List Char) : List (List Char × List Char) :=
  (List.range (wsCount s)).map (fun i => (s.take (wsCount s - i), s.drop (wsCount s - i)))

/-- Alternatives of the optional completion-marker group `(?:(x| )\s+)?`:
marker (`'x'` or `' '`) followed by whitespace, then the skip alternative. -/
def compAlts (s : List Char) : List (Option Char × List Char) :=
  (match s with
   | c :: rest =>
     if c = 'x' || c = ' ' then (wsSplits rest).map (fun p => (some c, p.2)) else []
   | [] => []) ++ [(none, s)]

/-- Alternatives of the optional priority group `(?:\(([A-Z])\)\s+)?`. -/
def prioAlts (s : List Char) : List (Option Char × List Char) :=
  (match s with
   | a :: c :: b :: rest =>
     if a = '(' && upperChar c && b = ')' then (wsSplits rest).map (fun p => (some c, p.2))
     else []
   | _ => []) ++ [(none, s)]

/-- Recognize the fixed-shape date token `\d\d\d\d-\d\d-\d\d` at the head of
`s`, returning the ten matched characters and the remainder. -/
def dateTok? (s : List Char) : Option (List Char × List Char) :=
  match s with
  | c1 :: c2 :: c3 :: c4 :: d1 :: c5 :: c6 :: d2 :: c7 :: c8 :: rest =>
    if digitChar c1 && digitChar c2 && digitChar c3 && digitChar c4 && d1 = '-' &&
       digitChar c5 && digitChar c6 && d2 = '-' && digitChar c7 && digitChar c8
    then some ([c1, c2, c3, c4, d1, c5, c6, d2, c7, c8], rest)
    else none
  | _ => none

/-- Alternatives of an optional date group `(?:(\d\d\d\d-\d\d-\d\d)\s+)?`. -/
def dateAlts (s : List Char) : List (Option (List Char) × List Char) :=
  (match dateTok? s with
   | some (tok, rest) => (wsSplits rest).map (fun p => (some tok, p.2))
   | none => []) ++ [(none, s)]

/-- The final group `(?<description>.+)$`: nonempty and free of line
terminators. -/
def descOk (s : List Char) : Bool :=
  !s.isEmpty && s.all dotChar

/-- Named captures of a successful `TODO_PAT` match (`mat.groups`). -/
structure Groups where
  completion : Option Char
  priority : Option Char
  completionDate : Option (List Char)
  creationDate : Option (List Char)
  description : List Char
deriving DecidableEq, Repr

/-- Continuation after both date groups: match the description. -/
def stage4 (comp prio : Option Char) (d1 d2 : Option (List Char)) (s : List Char) :
    Option Groups :=
  if descOk s then some ⟨comp, prio, d1, d2, s⟩ else none

/-- Continuation after the first date group: try the second date group. -/
def stage3 (comp prio : Option Char) (d1 : Option (List Char)) (s : List Char) :
    Option Groups :=
  (dateAlts s).findSome? (fun a => stage4 comp prio d1 a.1 a.2)

/-- Continuation after the priority group: try the first date group. -/
def stage2 (comp prio : Option Char) (s : List Char) : Option Groups :=
  (dateAlts s).findSome? (fun a => stage3 comp prio a.1 a.2)

/-- Continuation after the completion group: try the priority group. -/
def stage1 (comp : Option Char) (s : List Char) : Option Groups :=
  (prioAlts s).findSome? (fun a => stage2 comp a.1 a.2)

/-- Backtracking matcher for the anchored `TODO_PAT` of `src/todo.ts`:

`/^(?:(x| )\s+)?(?:\(([A-Z])\)\s+)?(?:(\d\d\d\d-\d\d-\d\d)\s+)?(?:(\d\d\d\d-\d\d-\d\d)\s+)?(.+)$/`

returning `mat.groups` of the leftmost-preferred successful parse. -/
def execTodoPat (s : List Char) : Option Groups :=
  (compAlts s).findSome? (fun a => stage1 a.1 a.2)

/-- A JS `Date` at midnight, reduced to its civil calendar components.
`std/datetime`'s `parse` builds the value through `setFullYear`, `setMonth`
and `setDate`, which normalize out-of-range month and day fields by calendar
rollover; `format` prints the normalized components.  See the module
docstring. -/
structure CivilDate where
  year : Int
  month : Int
  day : Int
deriving DecidableEq, Repr

/-- JS `Date` comparison is timestamp comparison; on normalized civil
components that is exactly lexicographic comparison of (year, month, day). -/
instance : LinearOrder CivilDate :=
  LinearOrder.lift' (fun d => toLex (d.year, toLex (d.month, d.day)))
    (fun a b h => by
      obtain ⟨y1, m1, d1⟩ := a
      obtain ⟨y2, m2, d2⟩ := b
      simp only [toLex_inj, Prod.mk.injEq] at h
      obtain ⟨h1, h2, h3⟩ := h
      rw [h1, h2, h3])

/-- Leap year of the proleptic Gregorian calendar ECMAScript `Date` uses. -/
def isLeap (y : Int) : Bool :=
  (y % 4 == 0 && y % 100 != 0) || y % 400 == 0

/-- Number of days in month `m` (between 1 and 12) of year `y`. -/
def daysInMonth (y m : Int) : Int :=
  if m = 2 then (if isLeap y then 29 else 28)
  else if m = 4 || m = 6 || m = 9 || m = 11 then 30
  else 31

/-- JS `setMonth` normalization: fold an arbitrary numeric month (counted
from 1, as in the `MM` text) into a year offset plus a month between 1
and 12.  ECMAScript specifies floored division, which `Int` division by the
positive literal 12 is. -/
def monthNorm (y m : Int) : Int × Int :=
  (y + (m - 1) / 12, (m - 1) % 12 + 1)

/-- JS `setDate` normalization: roll an out-of-range day of month through
the calendar, one month per step.  The fuel bounds the recursion; the
two-digit day fields the grammar feeds in (0 to 99) need at most four
steps. -/
def rollDay : Nat → Int → Int → Int → CivilDate
  | 0, y, m, d => ⟨y, m, d⟩
  | fuel + 1, y, m, d =>
    if d < 1 then
      let y' := if m = 1 then y - 1 else y
      let m' := if m = 1 then 12 else m - 1
      rollDay fuel y' m' (d + daysInMonth y' m')
    else if daysInMonth y m < d then
      let y' := if m = 12 then y + 1 else y
      let m' := if m = 12 then 1 else m + 1
      rollDay fuel y' m' (d - daysInMonth y m)
    else ⟨y, m, d⟩

/-- Numeric value of an ASCII digit character. -/
def digVal (c : Char) : Int :=
  (c.toNat : Int) - 48

/-- `std/datetime` `parse` with `"yyyy-MM-dd"` on a captured date token: read
the three numeric fields and normalize them as the JS `Date` setters do — the
month by twelve-month arithmetic, the day by calendar rollover.  The grammar
only ever hands this function ten-character tokens; on any other list it
returns the epoch date (there the library would throw instead). -/
def parseDateTok (tok : List Char) : CivilDate :=
  match tok with
  | [y1, y2, y3, y4, _, m1, m2, _, d1, d2] =>
    let p := monthNorm
      (1000 * digVal y1 + 100 * digVal y2 + 10 * digVal y3 + digVal y4)
      (10 * digVal m1 + digVal m2)
    rollDay 12 p.1 p.2 (10 * digVal d1 + digVal d2)
  | _ => ⟨1970, 1, 1⟩

/-- ASCII digit character from its value (`digCh n` for `n` between 0 and 9;
other values print as `'9'`, outside every reachable use). -/
def digCh (n : Int) : Char :=
  if n = 0 then '0' else if n = 1 then '1' else if n = 2 then '2'
  else if n = 3 then '3' else if n = 4 then '4' else if n = 5 then '5'
  else if n = 6 then '6' else if n = 7 then '7' else if n = 8 then '8' else '9'

/-- JS `String(value).padStart(2, "0")` for the normalized month and day
fields, which always lie between 1 and 31. -/
def pad2 (n : Int) : List Char :=
  [digCh (n / 10 % 10), digCh (n % 10)]

/-- JS `String(value).padStart(4, "0")` for the year field.  A year parsed
from a `yyyy` token with the month and day carries lies between `-1` (token
`0000-00-dd`) and `10008`; a negative year prints sign-then-digits and a
five-digit year prints unpadded, exactly as `String` does on that range. -/
def yearText (y : Int) : List Char :=
  if y < 0 then ['0', '0', '-', digCh ((-y) % 10)]
  else if y < 10000 then
    [digCh (y / 1000 % 10), digCh (y / 100 % 10), digCh (y / 10 % 10),
      digCh (y % 10)]
  else
    [digCh (y / 10000 % 10), digCh (y / 1000 % 10), digCh (y / 100 % 10),
      digCh (y / 10 % 10), digCh (y % 10)]

/-- `std/datetime` `format` with `"yyyy-MM-dd"` on a date value. -/
def formatDate (d : CivilDate) : List Char :=
  yearText d.year ++ '-' :: (pad2 d.month ++ '-' :: pad2 d.day)

/-- Calendar-valid date values with a four-digit year: exactly those the
formatter prints as a ten-character `yyyy-MM-dd` token that re-parses to the
same value. -/
def ValidDate (d : CivilDate) : Prop :=
  0 ≤ d.year ∧ d.year ≤ 9999 ∧ 1 ≤ d.month ∧ d.month ≤ 12 ∧
    1 ≤ d.day ∧ d.day ≤ daysInMonth d.year d.month

instance (d : CivilDate) : Decidable (ValidDate d) := by
  unfold ValidDate
  infer_instance

/-- The task record of `src/todo.ts` (`class Todo`).  Date fields hold the
parsed JS `Date` values, modelled as `CivilDate`. -/
structure Todo where
  description : List Char
  completion : Bool := false
  priority : Option Char := none
  completionDate : Option CivilDate := none
  creationDate : Option CivilDate := none
deriving DecidableEq, Repr

/-- Build a record from the named captures: each captured date token is run
through `std/datetime` `parse` (lines 79-84 of `src/todo.ts`), then the
date-reconciliation step (lines 85-94) applies — with exactly one captured
date, a completed task keeps the parsed value as `completionDate` and an
incomplete task moves it to `creationDate`. -/
def Todo.fromGroups (g : Groups) : Todo :=
  let t : Todo :=
    { description := g.description
      completion := decide (g.completion = some 'x')
      priority := g.priority
      completionDate := g.completionDate.map parseDateTok
      creationDate := g.creationDate.map parseDateTok }
  match g.completionDate, g.creationDate with
  | none, none => t
  | some _, some _ => t
  | some d, none =>
    if t.completion then t
    else { t with completionDate := none, creationDate := some (parseDateTok d) }
  | none, some d =>
    if t.completion then
      { t with completionDate := some (parseDateTok d), creationDate := none }
    else t

/-- `Todo.deserialize`: run the pattern and build the record, `none` on a
failed match. -/
def Todo.deserialize (line : List Char) : Option Todo :=
  (execTodoPat line).map Todo.fromGroups

/-- `Todo.serialize` for `color: false`: emit the present fields — each date
through `std/datetime` `format` — with fixed-width placeholders for the
absent ones when `align` is set, and join the words with single spaces. -/
def Todo.serialize (t : Todo) (align : Bool) : List Char :=
  let words : List (List Char) :=
    (if t.completion then [['x']] else if align then [[' ']] else []) ++
    (match t.priority with
     | some p => [['(', p, ')']]
     | none => if align then [List.replicate 3 ' '] else []) ++
    (match t.completionDate with
     | some d => [formatDate d]
     | none => if align then [List.replicate 10 ' '] else []) ++
    (match t.creationDate with
     | some d => [formatDate d]
     | none => if align then [List.replicate 10 ' '] else []) ++
    [t.description]
  List.intercalate [' '] words

/-- A ten-character `yyyy-MM-dd` shaped token (same condition as `dateTok?`). -/
def dateShape (tok : List Char) : Bool :=
  match tok with
  | [c1, c2, c3, c4, d1, c5, c6, d2, c7, c8] =>
    digitChar c1 && digitChar c2 && digitChar c3 && digitChar c4 && d1 = '-' &&
    digitChar c5 && digitChar c6 && d2 = '-' && digitChar c7 && digitChar c8
  | _ => false

/-- Does `s` begin with a completion-marker token the pattern can consume
(marker character followed by at least one whitespace character)? -/
def markerStart (s : List Char) : Bool :=
  match s with
  | c :: rest => (c = 'x' || c = ' ') && (wsCount rest != 0)
  | [] => false

/-- Does `s` begin with a priority token the pattern can consume? -/
def prioStart (s : List Char) : Bool :=
  match s with
  | a :: c :: b :: rest => a = '(' && upperChar c && b = ')' && (wsCount rest != 0)
  | _ => false

/-- Does `s` begin with a date token the pattern can consume? -/
def dateStart (s : List Char) : Bool :=
  match dateTok? s with
  | some (_, rest) => wsCount rest != 0
  | none => false

/-- Text consumed by the completion-marker group: the marker character and the
following whitespace run, empty when the group was skipped. -/
def markPart : Option Char → List Char → List Char
  | none, _ => []
  | some c, w => c :: w

/-- Text consumed by the priority group. -/
def prioPart : Option Char → List Char → List Char
  | none, _ => []
  | some p, w => '(' :: p :: ')' :: w

/-- Text consumed by a date group. -/
def datePart : Option (List Char) → List Char → List Char
  | none, _ => []
  | some d, w => d ++ w

/-- The whitespace run separating a matched group from what follows: nonempty
whitespace for a matched group, empty for a skipped one. -/
def SepFor {α : Type} : Option α → List Char → Prop
  | none, w => w = []
  | some _, w => w ≠ [] ∧ w.all wsChar = true

/-- A successful match decomposes the line into the consumed group texts,
their separating whitespace runs, and the description. -/
def MatchDecomp (line : List Char) (g : Groups) : Prop :=
  ∃ w1 w2 w3 w4 : List Char,
    SepFor g.completion w1 ∧ SepFor g.priority w2 ∧ SepFor g.completionDate w3 ∧
    SepFor g.creationDate w4 ∧
    line = markPart g.completion w1 ++ prioPart g.priority w2 ++
      datePart g.completionDate w3 ++ datePart g.creationDate w4 ++ g.description

/-- Shape facts about the captures of a successful match. -/
def GroupsWF (g : Groups) : Prop :=
  (∀ c, g.completion = some c → c = 'x' ∨ c = ' ') ∧
  (∀ p, g.priority = some p → upperChar p = true) ∧
  (∀ d, g.completionDate = some d → dateShape d = true) ∧
  (∀ d, g.creationDate = some d → dateShape d = true) ∧
  descOk g.description = true

/-- Words of the matched line with every separating whitespace run replaced
by a single space: the claim-side "collapsed" normal form of the line. -/
def Groups.canonicalWords (g : Groups) : List (List Char) :=
  (match g.completion with | some c => [[c]] | none => []) ++
  (match g.priority with | some p => [['(', p, ')']] | none => []) ++
  (match g.completionDate with | some d => [d] | none => []) ++
  (match g.creationDate with | some d => [d] | none => []) ++
  [g.description]

/-- The matched line with internal whitespace runs collapsed to single
spaces. -/
def Groups.collapse (g : Groups) : List Char :=
  List.intercalate [' '] g.canonicalWords

/-- Like `Groups.canonicalWords`, but as the serializer actually reproduces
the fields: a space-alternative completion marker is dropped, and each date
token is re-emitted as the formatted form of its parsed calendar value. -/
def Groups.serWords (g : Groups) : List (List Char) :=
  (if g.completion = some 'x' then [['x']] else []) ++
  (match g.priority with | some p => [['(', p, ')']] | none => []) ++
  (match g.completionDate with
   | some d => [formatDate (parseDateTok d)] | none => []) ++
  (match g.creationDate with
   | some d => [formatDate (parseDateTok d)] | none => []) ++
  [g.description]

/-- The line obtained by re-serializing the record parsed from a match. -/
def Groups.serLine (g : Groups) : List Char :=
  List.intercalate [' '] g.serWords

/-- Like `Groups.canonicalWords` with every marker kept, but each date token
replaced by the formatted form of its parsed value: the claim-side collapsed
normal form once calendar normalization is accounted for. -/
def Groups.canonWordsNorm (g : Groups) : List (List Char) :=
  (match g.completion with | some c => [[c]] | none => []) ++
  (match g.priority with | some p => [['(', p, ')']] | none => []) ++
  (match g.completionDate with
   | some d => [formatDate (parseDateTok d)] | none => []) ++
  (match g.creationDate with
   | some d => [formatDate (parseDateTok d)] | none => []) ++
  [g.description]

/-- The matched line with whitespace runs collapsed to single spaces and
each date token normalized through parse-then-format. -/
def Groups.collapseNorm (g : Groups) : List Char :=
  List.intercalate [' '] g.canonWordsNorm

/-- Date-field texts as the serializer emits them: each present date followed
by one separating space, then the description. -/
def serDates (d1 d2 : Option (List Char)) (desc : List Char) : List Char :=
  (match d1 with | some D => D ++ [' '] | none => []) ++
  (match d2 with | some D => D ++ [' '] | none => []) ++ desc

/-- Priority text as the serializer emits it. -/
def serPrio : Option Char → List Char → List Char
  | some p, r => '(' :: p :: ')' :: ' ' :: r
  | none, r => r

/-- Which date capture slots the pattern fills when it re-reads the emitted
date texts: the first emitted date is always captured by the first date
group. -/
def dateSlots : Option (List Char) → Option (List Char) →
    Option (List Char) × Option (List Char)
  | some a, some b => (some a, some b)
  | some a, none => (some a, none)
  | none, some b => (some b, none)
  | none, none => (none, none)

/-- Description texts whose canonical serialization re-parses verbatim: the
description is a valid description capture (nonempty, no line terminators),
does not begin with whitespace, and does not begin with a token that the
pattern would consume into one of the structured groups. -/
def DescSafe (d : List Char) : Prop :=
  descOk d = true ∧
  (match d with | c :: _ => wsChar c = false | [] => False) ∧
  markerStart d = false ∧ prioStart d = false ∧ dateStart d = false

/-- Records whose canonical serialization deserializes to the record itself:
safe description, uppercase priority, calendar-valid four-digit-year dates
(a non-normalized or out-of-range date value would format to a token that
re-parses differently or not at all), and date fields consistent with the
completion flag when exactly one date is present (the data-model invariant
of the specification). -/
def Serializable (t : Todo) : Prop :=
  DescSafe t.description ∧
  (match t.priority with | some p => upperChar p = true | none => True) ∧
  (match t.completionDate with | some D => ValidDate D | none => True) ∧
  (match t.creationDate with | some D => ValidDate D | none => True) ∧
  (t.completionDate ≠ none → t.creationDate = none → t.completion = true) ∧
  (t.creationDate ≠ none → t.completionDate = none → t.completion = false)

/-- Options object of the `Todo` constructor: the keys that may be provided;
an absent key leaves the corresponding field at its default. -/
structure TodoOpts where
  completion : Option Bool := none
  priority : Option Char := none
  completionDate : Option CivilDate := none
  creationDate : Option CivilDate := none
deriving DecidableEq, Repr

/-- The `Todo` constructor (lines 26-40 of `src/todo.ts`): stores the
description and copies every provided option over the field defaults; it
performs no validation of any kind. -/
def Todo.construct (description : List Char) (opts : TodoOpts) : Todo :=
  { description := description
    completion := opts.completion.getD false
    priority := opts.priority
    completionDate := opts.completionDate
    creationDate := opts.creationDate }

/-- Boolean prefix test on character lists. -/
def prefixOfB : List Char → List Char → Bool
  | [], _ => true
  | _ :: _, [] => false
  | a :: as, b :: bs => a = b && prefixOfB as bs

/-- JS `String.prototype.includes`: `needle` occurs contiguously in `hay`. -/
def includesSub (hay needle : List Char) : Bool :=
  hay.tails.any (fun t => prefixOfB needle t)

/-- The filtering passes of `List.execute` in `src/cli.ts` (lines 109-117):
first drop completed records unless `all` is set, then — only when at least
one filter string was given — keep records whose description includes some
filter string. -/
def filterTodos (all : Bool) (filters : List (List Char))
    (xs : List (Nat × Todo)) : List (Nat × Todo) :=
  let ys := if all then xs else xs.filter (fun p => !p.2.completion)
  if 0 < filters.length then
    ys.filter (fun p => filters.any (fun f => includesSub p.2.description f))
  else ys

/-- Per-line body of `Todo.load` (lines 102-109 of `src/todo.ts`): an empty
line yields no record and no warning; a non-empty line is deserialized, a
parse failure producing the record `null` plus a warning carrying the line
index and the file name. -/
def processLine (fname : List Char) (p : Nat × List Char) :
    Option Todo × Option (Nat × List Char) :=
  if p.2.isEmpty then (none, none)
  else
    match Todo.deserialize p.2 with
    | none => (none, some (p.1, fname))
    | some t => (some t, none)

/-- Split the resource text on the line separator, as JS `split("\n")`. -/
def splitNL (txt : List Char) : List (List Char) :=
  txt.splitOn '\n'

/-- `Todo.load` on the text of a resource: the kept records in order, paired
with the emitted warnings in order. -/
def Todo.load (fname txt : List Char) : List Todo × List (Nat × List Char) :=
  let pairs := (splitNL txt).enum.map (processLine fname)
  (pairs.filterMap Prod.fst, pairs.filterMap Prod.snd)

/-- Failures of the resource-level operations. -/
inductive LoadError where
  | resourceNotFound
deriving DecidableEq, Repr

/-- Resource-level load: the external read fails on an absent resource
(`Deno.readTextFile` throws NotFound, modelled by the `none` resource);
otherwise the whole text is processed line by line. -/
def loadResource (fname : List Char) (res : Option (List Char)) :
    Except LoadError (List Todo × List (Nat × List Char)) :=
  match res with
  | none => .error .resourceNotFound
  | some txt => .ok (Todo.load fname txt)

/-- JS `||` on comparator results: the left value unless it is zero. -/
def jsOr (a b : Int) : Int :=
  if a = 0 then b else a

/-- Three-way comparison of present values, as the generic `compare` of
`src/cli.ts` performs with `<` and `>` after its null checks. -/
def compareVal {α : Type} [LinearOrder α] (a b : α) : Int :=
  if a < b then -1 else if b < a then 1 else 0

/-- The generic `compare` of `src/cli.ts` (lines 87-94) on possibly-absent
values: strict equality gives 0, an absent value sorts before any present
one, and two present values compare by the embedded linear order (JS
boolean, string, number and Date comparison all agree with it). -/
def compareOpt {α : Type} [LinearOrder α] : Option α → Option α → Int
  | none, none => 0
  | none, some _ => -1
  | some _, none => 1
  | some a, some b => compareVal a b

/-- Strict version of the absent-first order the comparator induces. -/
def optLt {α : Type} [LT α] : Option α → Option α → Prop
  | none, none => False
  | none, some _ => True
  | some _, none => False
  | some a, some b => a < b

/-- Laws making a three-way comparator a linear preorder on its carrier. -/
structure LawfulCmp {β : Type} (f : β → β → Int) : Prop where
  neg : ∀ a b, f a b = -f b a
  lt_trans : ∀ {a b c}, f a b < 0 → f b c < 0 → f a c < 0
  eq_trans : ∀ {a b c}, f a b = 0 → f b c = 0 → f a c = 0
  eq_lt : ∀ {a b c}, f a b = 0 → f b c < 0 → f a c < 0
  lt_eq : ∀ {a b c}, f a b < 0 → f b c = 0 → f a c < 0

/-- The comparator of `List.execute`'s sort call (lines 118-124 of
`src/cli.ts`): completion, then priority, then creationDate — the parsed
`Date` values, compared chronologically — then original index, each
fallthrough happening exactly when the previous comparison returned zero. -/
def compareEntry (x y : Nat × Todo) : Int :=
  jsOr (jsOr (jsOr (compareVal x.2.completion y.2.completion)
      (compareOpt x.2.priority y.2.priority))
    (compareOpt x.2.creationDate y.2.creationDate))
    (compareVal x.1 y.1)

/-- The nonstrict order the comparator induces on indexed records. -/
def entryLe (x y : Nat × Todo) : Prop :=
  compareEntry x y ≤ 0

instance : DecidableRel entryLe :=
  fun x y => inferInstanceAs (Decidable (compareEntry x y ≤ 0))

/-- `Array.prototype.sort` with the comparator: a stable sort consistent with
the comparator, modelled by insertion sort. -/
def sortTodos (xs : List (Nat × Todo)) : List (Nat × Todo) :=
  List.insertionSort entryLe xs

/-- The specification's key precedence, spelled out: completion ascending
(false before true), then priority ascending with absent first, then
creationDate ascending with absent first, then original index ascending. -/
def entryKeyLe (x y : Nat × Todo) : Prop :=
  x.2.completion < y.2.completion ∨ (x.2.completion = y.2.completion ∧
    (optLt x.2.priority y.2.priority ∨ (x.2.priority = y.2.priority ∧
      (optLt x.2.creationDate y.2.creationDate ∨
        (x.2.creationDate = y.2.creationDate ∧ x.1 ≤ y.1)))))

/-- Non-whitespace, the JS `\S` class. -/
def nonWs (c : Char) : Bool :=
  !wsChar c

/-- Scan of a `matchAll` with pattern `\+(\S+)` (or `@` for contexts): at each
position, a marker character followed by at least one non-whitespace
character starts a match whose tag is the maximal non-whitespace run, and
scanning resumes after it; otherwise the scan advances one character. -/
def tagScan (mark : Char) : List Char → List (List Char)
  | [] => []
  | c :: rest =>
    if c = mark then
      if (rest.takeWhile nonWs).isEmpty then tagScan mark rest
      else rest.takeWhile nonWs :: tagScan mark (rest.dropWhile nonWs)
    else tagScan mark rest
termination_by s => s.length
decreasing_by
  · simp
  · simp only [List.length_cons]
    exact Nat.lt_succ_of_le ((List.dropWhile_sublist _).length_le)
  · simp

/-- The maximal non-whitespace runs of a string, in order. -/
def splitRuns : List Char → List (List Char)
  | [] => []
  | c :: rest =>
    if nonWs c then
      (c :: rest.takeWhile nonWs) :: splitRuns (rest.dropWhile nonWs)
    else splitRuns rest
termination_by s => s.length
decreasing_by
  · simp only [List.length_cons]
    exact Nat.lt_succ_of_le ((List.dropWhile_sublist _).length_le)
  · simp

/-- Split a run at its last colon that is followed by at least one more
character: the backtracking of greedy `(\S+):(\S+)` chooses the longest
possible key. -/
def splitLastColon : List Char → Option (List Char × List Char)
  | [] => none
  | c :: rest =>
    match splitLastColon rest with
    | some (k, v) => some (c :: k, v)
    | none => if c = ':' ∧ rest ≠ [] then some ([], rest) else none

/-- The match of `(\S+):(\S+)` against a whole non-whitespace run: the key is
everything before the last colon that leaves a nonempty value, and the key
must itself be nonempty. -/
def colonSplit (r : List Char) : Option (List Char × List Char) :=
  match splitLastColon r with
  | some ([], _) => none
  | some (k, v) => some (k, v)
  | none => none

/-- Scan of `matchAll` with `(\S+):(\S+)`: at a non-whitespace position the
greedy key-value match is attempted against the maximal non-whitespace run
from here; on success scanning resumes after the run, on failure it advances
one character. -/
def metaScan : List Char → List (List Char × List Char)
  | [] => []
  | c :: rest =>
    if nonWs c then
      match colonSplit (c :: rest.takeWhile nonWs) with
      | some e => e :: metaScan (rest.dropWhile nonWs)
      | none => metaScan rest
    else metaScan rest
termination_by s => s.length
decreasing_by
  · simp only [List.length_cons]
    exact Nat.lt_succ_of_le ((List.dropWhile_sublist _).length_le)
  · simp
  · simp

/-- The `projects` getter: tags of `PROJECT_PAT` over the description. -/
def Todo.projects (t : Todo) : List (List Char) :=
  tagScan '+' t.description

/-- The `contexts` getter: tags of `CONTEXT_PAT` over the description. -/
def Todo.contexts (t : Todo) : List (List Char) :=
  tagScan '@' t.description

/-- The key-value matches of `METADATA_PAT` over the description, in order
(the `metadata` getter then keeps the last value for a repeated key). -/
def Todo.metadataPairs (t : Todo) : List (List Char × List Char) :=
  metaScan t.description

theorem dateTok?_of_shape {tok : List Char} (h : dateShape tok = true) (r : List Char) :
    dateTok? (tok ++ r) = some (tok, r) := by
  unfold dateShape at h
  split at h
  · simp only [List.cons_append, List.nil_append, dateTok?, h, if_true]
  · exact absurd h (by simp)

theorem dateTok?_inv {s tok rest : List Char} (h : dateTok? s = some (tok, rest)) :
    s = tok ++ rest ∧ dateShape tok = true := by
  unfold dateTok? at h
  split at h
  · split at h
    · rename_i hcond
      injection h with h
      injection h with h1 h2
      subst h1; subst h2
      refine ⟨by simp, ?_⟩
      simpa [dateShape] using hcond
    · exact absurd h (by simp)
  · exact absurd h (by simp)

theorem wsCount_nil : wsCount ([] : List Char) = 0 := rfl

theorem wsCount_cons_of_not_ws {c : Char} {s : List Char} (h : wsChar c = false) :
    wsCount (c :: s) = 0 := by
  simp [wsCount, List.takeWhile_cons, h]

theorem wsCount_cons_of_ws {c : Char} {s : List Char} (h : wsChar c = true) :
    wsCount (c :: s) = wsCount s + 1 := by
  simp [wsCount, List.takeWhile_cons, h]

theorem wsSplits_nil_of_count_zero {s : List Char} (h : wsCount s = 0) :
    wsSplits s = [] := by
  simp [wsSplits, h]

theorem wsSplits_single {c : Char} {s : List Char} (hc : wsChar c = true)
    (h : wsCount s = 0) : wsSplits (c :: s) = [([c], s)] := by
  simp [wsSplits, wsCount_cons_of_ws hc, h, List.range_succ]

theorem wsCount_le_length (s : List Char) : wsCount s ≤ s.length := by
  induction s with
  | nil => simp [wsCount]
  | cons c t ih =>
    by_cases hc : wsChar c = true
    · rw [wsCount_cons_of_ws hc]
      simpa using ih
    · rw [wsCount_cons_of_not_ws (by simpa using hc)]
      simp

theorem wsSplits_inv {s : List Char} {p : List Char × List Char}
    (h : p ∈ wsSplits s) : p.1 ≠ [] ∧ p.1.all wsChar = true ∧ p.1 ++ p.2 = s := by
  unfold wsSplits at h
  obtain ⟨i, hi, rfl⟩ := List.mem_map.mp h
  dsimp only
  have hi' : i < wsCount s := List.mem_range.mp hi
  set k := wsCount s - i with hk
  have hk1 : 1 ≤ k := by omega
  have hkc : k ≤ wsCount s := by omega
  have hlen : wsCount s ≤ s.length := wsCount_le_length s
  have htk : s.take k = (s.takeWhile wsChar).take k := by
    conv_lhs => rw [← List.takeWhile_append_dropWhile (p := wsChar) (l := s)]
    rw [List.take_append_of_le_length]
    simpa [wsCount] using hkc
  refine ⟨?_, ?_, List.take_append_drop k s⟩
  · have hlk : (s.take k).length = k := by
      rw [List.length_take]
      omega
    intro hnil
    rw [hnil] at hlk
    simp at hlk
    omega
  · rw [htk]
    simp only [List.all_eq_true]
    intro x hx
    exact List.mem_takeWhile_imp (List.take_subset _ _ hx)

theorem findSome?_inv {α β : Type} {l : List α} {f : α → Option β} {b : β}
    (h : l.findSome? f = some b) : ∃ a ∈ l, f a = some b := by
  obtain ⟨l1, a, l2, rfl, ha, -⟩ := List.findSome?_eq_some_iff.mp h
  exact ⟨a, by simp, ha⟩

theorem compAlts_skip {s : List Char} (h : markerStart s = false) :
    compAlts s = [(none, s)] := by
  unfold compAlts
  match s with
  | [] => rfl
  | c :: rest =>
    simp only [markerStart] at h
    by_cases hc : (c = 'x' || c = ' ') = true
    · have : wsCount rest = 0 := by
        rcases Bool.and_eq_false_iff.mp h with h' | h'
        · exact absurd hc (by simp [h'])
        · simpa using h'
      simp [hc, wsSplits_nil_of_count_zero this]
    · simp [Bool.not_eq_true] at hc
      simp [hc]

theorem prioAlts_skip {s : List Char} (h : prioStart s = false) :
    prioAlts s = [(none, s)] := by
  unfold prioAlts
  match s with
  | [] => rfl
  | [a] => rfl
  | [a, c] => rfl
  | a :: c :: b :: rest =>
    simp only [prioStart] at h
    cases hc : (a = '(' && upperChar c && b = ')') with
    | true =>
      have : wsCount rest = 0 := by
        rcases Bool.and_eq_false_iff.mp h with h' | h'
        · exact absurd hc (by simp [h'])
        · simpa using h'
      simp [hc, wsSplits_nil_of_count_zero this]
    | false => simp [hc]

theorem dateAlts_skip {s : List Char} (h : dateStart s = false) :
    dateAlts s = [(none, s)] := by
  unfold dateAlts
  unfold dateStart at h
  split
  · rename_i tok rest heq
    rw [heq] at h
    simp only at h
    simp [wsSplits_nil_of_count_zero (by simpa using h)]
  · rfl

theorem findSome?_pair {α β : Type} (a : α) (s : List α) (f : α → Option β) :
    List.findSome? f (a :: s) = ((f a).or (List.findSome? f s)) := by
  rw [List.findSome?_cons]
  cases f a <;> simp

theorem findSome?_singleton {α β : Type} (a : α) (f : α → Option β) :
    List.findSome? f [a] = f a := by
  rw [List.findSome?_cons]
  cases f a <;> simp

theorem stage1_skip {comp : Option Char} {s : List Char} (h : prioStart s = false) :
    stage1 comp s = stage2 comp none s := by
  rw [stage1, prioAlts_skip h, findSome?_singleton]

theorem stage2_skip {comp prio : Option Char} {s : List Char} (h : dateStart s = false) :
    stage2 comp prio s = stage3 comp prio none s := by
  rw [stage2, dateAlts_skip h, findSome?_singleton]

theorem stage3_skip {comp prio : Option Char} {d1 : Option (List Char)} {s : List Char}
    (h : dateStart s = false) : stage3 comp prio d1 s = stage4 comp prio d1 none s := by
  rw [stage3, dateAlts_skip h, findSome?_singleton]

theorem exec_skip {s : List Char} (h : markerStart s = false) :
    execTodoPat s = stage1 none s := by
  rw [execTodoPat, compAlts_skip h, findSome?_singleton]

theorem stage4_desc {comp prio : Option Char} {d1 d2 : Option (List Char)} {s : List Char}
    (h : descOk s = true) : stage4 comp prio d1 d2 s = some ⟨comp, prio, d1, d2, s⟩ := by
  simp [stage4, h]

theorem stage1_prio_succ {comp : Option Char} {p : Char} {s : List Char} {g : Groups}
    (hp : upperChar p = true) (h0 : wsCount s = 0)
    (h : stage2 comp (some p) s = some g) :
    stage1 comp ('(' :: p :: ')' :: ' ' :: s) = some g := by
  rw [stage1]
  have : prioAlts ('(' :: p :: ')' :: ' ' :: s) =
      [(some p, s), (none, '(' :: p :: ')' :: ' ' :: s)] := by
    unfold prioAlts
    dsimp only
    rw [if_pos (by simp [hp]), wsSplits_single (c := ' ') (by decide) h0]
    rfl
  rw [this, findSome?_pair]
  simp [h]

theorem stage2_date_succ {comp prio : Option Char} {tok s : List Char} {g : Groups}
    (ht : dateShape tok = true) (h0 : wsCount s = 0)
    (h : stage3 comp prio (some tok) s = some g) :
    stage2 comp prio (tok ++ ' ' :: s) = some g := by
  rw [stage2]
  have : dateAlts (tok ++ ' ' :: s) = [(some tok, s), (none, tok ++ ' ' :: s)] := by
    unfold dateAlts
    rw [dateTok?_of_shape ht]
    dsimp only
    rw [wsSplits_single (c := ' ') (by decide) h0]
    rfl
  rw [this, findSome?_pair]
  simp [h]

theorem stage3_date_succ {comp prio : Option Char} {d1 : Option (List Char)}
    {tok s : List Char} {g : Groups}
    (ht : dateShape tok = true) (h0 : wsCount s = 0)
    (h : stage4 comp prio d1 (some tok) s = some g) :
    stage3 comp prio d1 (tok ++ ' ' :: s) = some g := by
  rw [stage3]
  have : dateAlts (tok ++ ' ' :: s) = [(some tok, s), (none, tok ++ ' ' :: s)] := by
    unfold dateAlts
    rw [dateTok?_of_shape ht]
    dsimp only
    rw [wsSplits_single (c := ' ') (by decide) h0]
    rfl
  rw [this, findSome?_pair]
  simp [h]

theorem exec_marker_succ {c : Char} {s : List Char} {g : Groups}
    (hc : c = 'x' ∨ c = ' ') (h0 : wsCount s = 0)
    (h : stage1 (some c) s = some g) :
    execTodoPat (c :: ' ' :: s) = some g := by
  rw [execTodoPat]
  have : compAlts (c :: ' ' :: s) = [(some c, s), (none, c :: ' ' :: s)] := by
    unfold compAlts
    dsimp only
    rw [if_pos (by rcases hc with rfl | rfl <;> simp),
        wsSplits_single (c := ' ') (by decide) h0]
    rfl
  rw [this, findSome?_pair]
  simp [h]

theorem compAlts_inv {s : List Char} {a : Option Char × List Char}
    (h : a ∈ compAlts s) :
    ∃ w, SepFor a.1 w ∧ s = markPart a.1 w ++ a.2 ∧
      (∀ c, a.1 = some c → c = 'x' ∨ c = ' ') := by
  unfold compAlts at h
  rcases List.mem_append.mp h with hl | hr
  · match s, hl with
    | c :: rest, hl =>
      dsimp only at hl
      split at hl
      · rename_i hcond
        obtain ⟨p, hp, rfl⟩ := List.mem_map.mp hl
        obtain ⟨hne, hall, happ⟩ := wsSplits_inv hp
        refine ⟨p.1, ⟨hne, hall⟩, ?_, ?_⟩
        · simp [markPart, ← happ]
        · intro c' hc'
          injection hc' with hc'
          subst hc'
          simpa using hcond
      · exact absurd hl (by simp)
  · have : a = (none, s) := by simpa using hr
    subst this
    exact ⟨[], rfl, by simp [markPart], by simp⟩

theorem prioAlts_inv {s : List Char} {a : Option Char × List Char}
    (h : a ∈ prioAlts s) :
    ∃ w, SepFor a.1 w ∧ s = prioPart a.1 w ++ a.2 ∧
      (∀ p, a.1 = some p → upperChar p = true) := by
  unfold prioAlts at h
  rcases List.mem_append.mp h with hl | hr
  · match s, hl with
    | a0 :: c :: b :: rest, hl =>
      dsimp only at hl
      split at hl
      · rename_i hcond
        have hcond' : (a0 = '(' ∧ upperChar c = true) ∧ b = ')' := by
          simpa using hcond
        obtain ⟨⟨hpa, hcu⟩, hpb⟩ := hcond'
        obtain ⟨p, hp, rfl⟩ := List.mem_map.mp hl
        obtain ⟨hne, hall, happ⟩ := wsSplits_inv hp
        subst hpa
        subst hpb
        refine ⟨p.1, ⟨hne, hall⟩, ?_, ?_⟩
        · simp [prioPart, ← happ]
        · intro p' hp'
          injection hp' with hp'
          subst hp'
          exact hcu
      · exact absurd hl (by simp)
  · have : a = (none, s) := by simpa using hr
    subst this
    exact ⟨[], rfl, by simp [prioPart], by simp⟩

theorem dateAlts_inv {s : List Char} {a : Option (List Char) × List Char}
    (h : a ∈ dateAlts s) :
    ∃ w, SepFor a.1 w ∧ s = datePart a.1 w ++ a.2 ∧
      (∀ d, a.1 = some d → dateShape d = true) := by
  unfold dateAlts at h
  rcases List.mem_append.mp h with hl | hr
  · split at hl
    · rename_i tok rest heq
      obtain ⟨hs, hshape⟩ := dateTok?_inv heq
      obtain ⟨p, hp, rfl⟩ := List.mem_map.mp hl
      obtain ⟨hne, hall, happ⟩ := wsSplits_inv hp
      refine ⟨p.1, ⟨hne, hall⟩, ?_, ?_⟩
      · simp [datePart, hs, ← happ]
      · intro d' hd'
        injection hd' with hd'
        subst hd'
        exact hshape
    · exact absurd hl (by simp)
  · have : a = (none, s) := by simpa using hr
    subst this
    exact ⟨[], rfl, by simp [datePart], by simp⟩

theorem stage4_inv {comp prio : Option Char} {d1 d2 : Option (List Char)}
    {s : List Char} {g : Groups} (h : stage4 comp prio d1 d2 s = some g) :
    g = ⟨comp, prio, d1, d2, s⟩ ∧ descOk s = true := by
  unfold stage4 at h
  split at h
  · rename_i hd
    injection h with h
    exact ⟨h.symm, hd⟩
  · exact absurd h (by simp)

/-- Inversion of a successful `TODO_PAT` match: the captures are shaped as
the pattern demands and the line decomposes into consumed texts. -/
theorem execTodoPat_inv {line : List Char} {g : Groups}
    (h : execTodoPat line = some g) : MatchDecomp line g ∧ GroupsWF g := by
  obtain ⟨a1, ha1, h1⟩ := findSome?_inv h
  obtain ⟨a2, ha2, h2⟩ := findSome?_inv h1
  obtain ⟨a3, ha3, h3⟩ := findSome?_inv h2
  obtain ⟨a4, ha4, h4⟩ := findSome?_inv h3
  obtain ⟨hg, hdesc⟩ := stage4_inv h4
  obtain ⟨w1, hs1, he1, hc1⟩ := compAlts_inv ha1
  obtain ⟨w2, hs2, he2, hc2⟩ := prioAlts_inv ha2
  obtain ⟨w3, hs3, he3, hc3⟩ := dateAlts_inv ha3
  obtain ⟨w4, hs4, he4, hc4⟩ := dateAlts_inv ha4
  subst hg
  constructor
  · refine ⟨w1, w2, w3, w4, hs1, hs2, hs3, hs4, ?_⟩
    dsimp only
    rw [he1, he2, he3, he4]
    simp [List.append_assoc]
  · exact ⟨hc1, hc2, hc3, hc4, hdesc⟩

theorem digVal_digCh {n : Int} (h0 : 0 ≤ n) (h9 : n < 10) : digVal (digCh n) = n := by
  interval_cases n <;> decide

theorem digitChar_digCh {n : Int} (h0 : 0 ≤ n) (h9 : n < 10) :
    digitChar (digCh n) = true := by
  interval_cases n <;> decide

theorem daysInMonth_bounds (y m : Int) :
    28 ≤ daysInMonth y m ∧ daysInMonth y m ≤ 31 := by
  rw [daysInMonth]
  split
  · split <;> omega
  · split <;> omega

theorem monthNorm_id {y m : Int} (h1 : 1 ≤ m) (h2 : m ≤ 12) :
    monthNorm y m = (y, m) := by
  simp only [monthNorm, Prod.mk.injEq]
  omega

theorem rollDay_fixed (fuel : Nat) {y m d : Int} (h1 : 1 ≤ d)
    (h2 : d ≤ daysInMonth y m) : rollDay fuel y m d = ⟨y, m, d⟩ := by
  cases fuel with
  | zero => rfl
  | succ n => rw [rollDay, if_neg (by omega), if_neg (by omega)]

theorem formatDate_eq {y m d : Int} (hy0 : 0 ≤ y) (hy1 : y ≤ 9999) :
    formatDate ⟨y, m, d⟩ =
      [digCh (y / 1000 % 10), digCh (y / 100 % 10), digCh (y / 10 % 10),
        digCh (y % 10), '-', digCh (m / 10 % 10), digCh (m % 10), '-',
        digCh (d / 10 % 10), digCh (d % 10)] := by
  rw [formatDate]
  dsimp only
  rw [yearText, if_neg (by omega), if_pos (by omega)]
  rfl

/-- `parse` after `format` is the identity on calendar-valid four-digit-year
dates: the formatter prints the fields verbatim and the parser's month and
day normalizations pass in-range fields through unchanged. -/
theorem parse_format {d : CivilDate} (h : ValidDate d) :
    parseDateTok (formatDate d) = d := by
  obtain ⟨y, m, d⟩ := d
  obtain ⟨hy0, hy1, hm0, hm1, hd0, hd1⟩ := h
  dsimp only at hy0 hy1 hm0 hm1 hd0 hd1
  have hdm := daysInMonth_bounds y m
  rw [formatDate_eq hy0 hy1]
  simp only [parseDateTok]
  have e1 : digVal (digCh (y / 1000 % 10)) = y / 1000 % 10 :=
    digVal_digCh (by omega) (by omega)
  have e2 : digVal (digCh (y / 100 % 10)) = y / 100 % 10 :=
    digVal_digCh (by omega) (by omega)
  have e3 : digVal (digCh (y / 10 % 10)) = y / 10 % 10 :=
    digVal_digCh (by omega) (by omega)
  have e4 : digVal (digCh (y % 10)) = y % 10 :=
    digVal_digCh (by omega) (by omega)
  have e5 : digVal (digCh (m / 10 % 10)) = m / 10 % 10 :=
    digVal_digCh (by omega) (by omega)
  have e6 : digVal (digCh (m % 10)) = m % 10 :=
    digVal_digCh (by omega) (by omega)
  have e7 : digVal (digCh (d / 10 % 10)) = d / 10 % 10 :=
    digVal_digCh (by omega) (by omega)
  have e8 : digVal (digCh (d % 10)) = d % 10 :=
    digVal_digCh (by omega) (by omega)
  rw [e1, e2, e3, e4, e5, e6, e7, e8]
  have hY : 1000 * (y / 1000 % 10) + 100 * (y / 100 % 10) + 10 * (y / 10 % 10) +
      y % 10 = y := by omega
  have hM : 10 * (m / 10 % 10) + m % 10 = m := by omega
  have hD : 10 * (d / 10 % 10) + d % 10 = d := by omega
  rw [hY, hM, hD, monthNorm_id hm0 hm1]
  exact rollDay_fixed 12 hd0 hd1

/-- The formatter prints a calendar-valid four-digit-year date as a token of
the grammar's `yyyy-MM-dd` shape. -/
theorem dateShape_format {d : CivilDate} (h : ValidDate d) :
    dateShape (formatDate d) = true := by
  obtain ⟨y, m, d⟩ := d
  obtain ⟨hy0, hy1, hm0, hm1, hd0, hd1⟩ := h
  dsimp only at hy0 hy1 hm0 hm1 hd0 hd1
  rw [formatDate_eq hy0 hy1]
  simp [dateShape, digitChar_digCh (show (0 : Int) ≤ y / 1000 % 10 by omega)
      (by omega),
    digitChar_digCh (show (0 : Int) ≤ y / 100 % 10 by omega) (by omega),
    digitChar_digCh (show (0 : Int) ≤ y / 10 % 10 by omega) (by omega),
    digitChar_digCh (show (0 : Int) ≤ y % 10 by omega) (by omega),
    digitChar_digCh (show (0 : Int) ≤ m / 10 % 10 by omega) (by omega),
    digitChar_digCh (show (0 : Int) ≤ m % 10 by omega) (by omega),
    digitChar_digCh (show (0 : Int) ≤ d / 10 % 10 by omega) (by omega),
    digitChar_digCh (show (0 : Int) ≤ d % 10 by omega) (by omega)]

theorem serialize_fromGroups (g : Groups) :
    (Todo.fromGroups g).serialize false = Groups.serLine g := by
  obtain ⟨comp, prio, d1, d2, desc⟩ := g
  have hsplit : comp = some 'x' ∨ comp ≠ some 'x' := by
    by_cases h : comp = some 'x'
    · exact Or.inl h
    · exact Or.inr h
  rcases hsplit with rfl | hc
  · cases d1 <;> cases d2 <;>
      simp [Todo.fromGroups, Todo.serialize, Groups.serLine, Groups.serWords]
  · cases d1 <;> cases d2 <;>
      simp [Todo.fromGroups, Todo.serialize, Groups.serLine, Groups.serWords, hc]

/-- C1: for every line the grammar accepts, `deserialize` succeeds and
resolves the captured date tokens as follows: two captured tokens go, parsed,
to `completionDate` and `creationDate` positionally regardless of the
completion flag; a single captured token goes, parsed, to `completionDate`
when `completion` is true and to `creationDate` when it is false; no token
leaves both fields absent. -/
theorem claim1_date_resolution (line : List Char) (g : Groups)
    (h : execTodoPat line = some g) :
    Todo.deserialize line = some (Todo.fromGroups g) ∧
    (Todo.fromGroups g).completion = decide (g.completion = some 'x') ∧
    (∀ a b, g.completionDate = some a → g.creationDate = some b →
      (Todo.fromGroups g).completionDate = some (parseDateTok a) ∧
      (Todo.fromGroups g).creationDate = some (parseDateTok b)) ∧
    (∀ a, g.completionDate = some a → g.creationDate = none →
      (if (Todo.fromGroups g).completion then
        (Todo.fromGroups g).completionDate = some (parseDateTok a) ∧
        (Todo.fromGroups g).creationDate = none
      else
        (Todo.fromGroups g).creationDate = some (parseDateTok a) ∧
        (Todo.fromGroups g).completionDate = none)) ∧
    (∀ b, g.completionDate = none → g.creationDate = some b →
      (if (Todo.fromGroups g).completion then
        (Todo.fromGroups g).completionDate = some (parseDateTok b) ∧
        (Todo.fromGroups g).creationDate = none
      else
        (Todo.fromGroups g).creationDate = some (parseDateTok b) ∧
        (Todo.fromGroups g).completionDate = none)) ∧
    (g.completionDate = none → g.creationDate = none →
      (Todo.fromGroups g).completionDate = none ∧
      (Todo.fromGroups g).creationDate = none) := by
  obtain ⟨comp, prio, d1, d2, desc⟩ := g
  refine ⟨by simp [Todo.deserialize, h], ?_, ?_, ?_, ?_, ?_⟩ <;>
    cases hb : decide (comp = some 'x') <;>
      cases d1 <;> cases d2 <;> simp [Todo.fromGroups, hb]

/-- Witness for C1 at the specification's own two-date example line. -/
theorem claim1_witness :
    Todo.deserialize ((r"x 2023-01-05 2023-01-01 mail letter").toList) =
      some (Todo.fromGroups ⟨some 'x', none, some ((r"2023-01-05").toList),
        some ((r"2023-01-01").toList), (r"mail letter").toList⟩) ∧
    (Todo.fromGroups ⟨some 'x', none, some ((r"2023-01-05").toList),
        some ((r"2023-01-01").toList),
        (r"mail letter").toList⟩).completionDate =
      some (parseDateTok ((r"2023-01-05").toList)) ∧
    (Todo.fromGroups ⟨some 'x', none, some ((r"2023-01-05").toList),
        some ((r"2023-01-01").toList),
        (r"mail letter").toList⟩).creationDate =
      some (parseDateTok ((r"2023-01-01").toList)) := by
  have h := claim1_date_resolution ((r"x 2023-01-05 2023-01-01 mail letter").toList)
    ⟨some 'x', none, some ((r"2023-01-05").toList),
      some ((r"2023-01-01").toList), (r"mail letter").toList⟩ (by decide)
  exact ⟨h.1, h.2.2.1 _ _ rfl rfl⟩

theorem wsChar_false_of_digit {c : Char} (h : digitChar c = true) : wsChar c = false := by
  simp only [digitChar, Bool.and_eq_true, decide_eq_true_eq] at h
  obtain ⟨h1, h2⟩ := h
  simp only [wsChar, Bool.or_eq_false_iff, decide_eq_false_iff_not]
  refine ⟨⟨⟨⟨⟨?_, ?_⟩, ?_⟩, ?_⟩, ?_⟩, ?_⟩ <;> (rintro rfl; revert h1 h2; decide)

theorem dateShape_head {D : List Char} (h : dateShape D = true) :
    ∃ c r, D = c :: r ∧ digitChar c = true := by
  unfold dateShape at h
  split at h
  · rename_i c1 c2 c3 c4 e1 c5 c6 e2 c7 c8
    refine ⟨c1, _, rfl, ?_⟩
    simp only [Bool.and_eq_true] at h
    exact h.1.1.1.1.1.1.1.1.1
  · exact absurd h (by simp)

theorem wsCount_shape_append {D r : List Char} (h : dateShape D = true) :
    wsCount (D ++ r) = 0 := by
  obtain ⟨c, t, rfl, hd⟩ := dateShape_head h
  rw [List.cons_append]
  exact wsCount_cons_of_not_ws (wsChar_false_of_digit hd)

theorem markerStart_cons_ne {c : Char} {rest : List Char}
    (h1 : c ≠ 'x') (h2 : c ≠ ' ') : markerStart (c :: rest) = false := by
  simp [markerStart, h1, h2]

theorem prioStart_cons_ne {c : Char} {rest : List Char} (h : c ≠ '(') :
    prioStart (c :: rest) = false := by
  unfold prioStart
  match rest with
  | [] => rfl
  | [x] => rfl
  | x :: y :: r => simp [h]

theorem serialize_canon (t : Todo) :
    t.serialize false =
      (if t.completion then
        'x' :: ' ' :: serPrio t.priority
          (serDates (t.completionDate.map formatDate)
            (t.creationDate.map formatDate) t.description)
      else
        serPrio t.priority (serDates (t.completionDate.map formatDate)
          (t.creationDate.map formatDate) t.description)) := by
  obtain ⟨desc, comp, prio, d1, d2⟩ := t
  cases comp <;> cases prio <;> cases d1 <;> cases d2 <;>
    simp [Todo.serialize, serPrio, serDates, List.intercalate]

theorem serDates_ws0 {d1 d2 : Option (List Char)} {c0 : Char} {dr : List Char}
    (h1 : ∀ D, d1 = some D → dateShape D = true)
    (h2 : ∀ D, d2 = some D → dateShape D = true)
    (hc0 : wsChar c0 = false) :
    wsCount (serDates d1 d2 (c0 :: dr)) = 0 := by
  cases d1 with
  | some a =>
    simp only [serDates, List.append_assoc]
    exact wsCount_shape_append (h1 a rfl)
  | none =>
    cases d2 with
    | some b =>
      simp only [serDates, List.nil_append, List.append_assoc]
      exact wsCount_shape_append (h2 b rfl)
    | none => simpa [serDates] using wsCount_cons_of_not_ws hc0

theorem serDates_markerStart {d1 d2 : Option (List Char)} {c0 : Char} {dr : List Char}
    (h1 : ∀ D, d1 = some D → dateShape D = true)
    (h2 : ∀ D, d2 = some D → dateShape D = true)
    (hm : markerStart (c0 :: dr) = false) :
    markerStart (serDates d1 d2 (c0 :: dr)) = false := by
  cases d1 with
  | some a =>
    obtain ⟨c, t, he, hd⟩ := dateShape_head (h1 a rfl)
    simp only [serDates, he, List.cons_append, List.append_assoc]
    exact markerStart_cons_ne (by rintro rfl; revert hd; decide)
      (by rintro rfl; revert hd; decide)
  | none =>
    cases d2 with
    | some b =>
      obtain ⟨c, t, he, hd⟩ := dateShape_head (h2 b rfl)
      simp only [serDates, he, List.nil_append, List.cons_append, List.append_assoc]
      exact markerStart_cons_ne (by rintro rfl; revert hd; decide)
        (by rintro rfl; revert hd; decide)
    | none => simpa [serDates] using hm

theorem serDates_prioStart {d1 d2 : Option (List Char)} {c0 : Char} {dr : List Char}
    (h1 : ∀ D, d1 = some D → dateShape D = true)
    (h2 : ∀ D, d2 = some D → dateShape D = true)
    (hs : prioStart (c0 :: dr) = false) :
    prioStart (serDates d1 d2 (c0 :: dr)) = false := by
  cases d1 with
  | some a =>
    obtain ⟨c, t, he, hd⟩ := dateShape_head (h1 a rfl)
    simp only [serDates, he, List.cons_append, List.append_assoc]
    exact prioStart_cons_ne (by rintro rfl; revert hd; decide)
  | none =>
    cases d2 with
    | some b =>
      obtain ⟨c, t, he, hd⟩ := dateShape_head (h2 b rfl)
      simp only [serDates, he, List.nil_append, List.cons_append, List.append_assoc]
      exact prioStart_cons_ne (by rintro rfl; revert hd; decide)
    | none => simpa [serDates] using hs

theorem stage2_serDates {comp prio : Option Char} {d1 d2 : Option (List Char)}
    {desc : List Char}
    (h1 : ∀ D, d1 = some D → dateShape D = true)
    (h2 : ∀ D, d2 = some D → dateShape D = true)
    (hdesc : descOk desc = true) (hzero : wsCount desc = 0)
    (hds : dateStart desc = false) :
    stage2 comp prio (serDates d1 d2 desc) =
      some ⟨comp, prio, (dateSlots d1 d2).1, (dateSlots d1 d2).2, desc⟩ := by
  cases d1 with
  | some a =>
    cases d2 with
    | some b =>
      have hb := h2 b rfl
      have heq : serDates (some a) (some b) desc = a ++ ' ' :: (b ++ ' ' :: desc) := by
        simp [serDates]
      rw [heq]
      exact stage2_date_succ (h1 a rfl) (wsCount_shape_append hb)
        (stage3_date_succ hb hzero (stage4_desc hdesc))
    | none =>
      have heq : serDates (some a) none desc = a ++ ' ' :: desc := by
        simp [serDates]
      rw [heq]
      refine stage2_date_succ (h1 a rfl) hzero ?_
      rw [stage3_skip hds]
      exact stage4_desc hdesc
  | none =>
    cases d2 with
    | some b =>
      have heq : serDates none (some b) desc = b ++ ' ' :: desc := by
        simp [serDates]
      rw [heq]
      refine stage2_date_succ (h2 b rfl) hzero ?_
      rw [stage3_skip hds]
      exact stage4_desc hdesc
    | none =>
      have heq : serDates none none desc = desc := by simp [serDates]
      rw [heq, stage2_skip hds, stage3_skip hds]
      exact stage4_desc hdesc

theorem stage1_serBody {comp : Option Char} {prio : Option Char}
    {d1 d2 : Option (List Char)} {c0 : Char} {dr : List Char}
    (hp : ∀ p, prio = some p → upperChar p = true)
    (h1 : ∀ D, d1 = some D → dateShape D = true)
    (h2 : ∀ D, d2 = some D → dateShape D = true)
    (hdesc : descOk (c0 :: dr) = true) (hc0 : wsChar c0 = false)
    (hds : dateStart (c0 :: dr) = false) (hps : prioStart (c0 :: dr) = false) :
    stage1 comp (serPrio prio (serDates d1 d2 (c0 :: dr))) =
      some ⟨comp, prio, (dateSlots d1 d2).1, (dateSlots d1 d2).2, c0 :: dr⟩ := by
  cases prio with
  | some p =>
    exact stage1_prio_succ (hp p rfl) (serDates_ws0 h1 h2 hc0)
      (stage2_serDates h1 h2 hdesc (wsCount_cons_of_not_ws hc0) hds)
  | none =>
    rw [serPrio, stage1_skip (serDates_prioStart h1 h2 hps)]
    exact stage2_serDates h1 h2 hdesc (wsCount_cons_of_not_ws hc0) hds

theorem fromGroups_slots {cb : Bool} {prio : Option Char} {d1 d2 : Option CivilDate}
    {desc : List Char}
    (hv1 : ∀ D, d1 = some D → ValidDate D)
    (hv2 : ∀ D, d2 = some D → ValidDate D)
    (hc1 : d1 ≠ none → d2 = none → cb = true)
    (hc2 : d2 ≠ none → d1 = none → cb = false) :
    Todo.fromGroups ⟨(if cb then some 'x' else none), prio,
        (dateSlots (d1.map formatDate) (d2.map formatDate)).1,
        (dateSlots (d1.map formatDate) (d2.map formatDate)).2, desc⟩ =
      ⟨desc, cb, prio, d1, d2⟩ := by
  cases d1 with
  | none =>
    cases d2 with
    | none => cases cb <;> simp [Todo.fromGroups, dateSlots]
    | some B =>
      have hB := parse_format (hv2 B rfl)
      have hcb : cb = false := hc2 (by simp) rfl
      subst hcb
      simp [Todo.fromGroups, dateSlots, hB]
  | some A =>
    have hA := parse_format (hv1 A rfl)
    cases d2 with
    | none =>
      have hcb : cb = true := hc1 (by simp) rfl
      subst hcb
      simp [Todo.fromGroups, dateSlots, hA]
    | some B =>
      have hB := parse_format (hv2 B rfl)
      cases cb <;> simp [Todo.fromGroups, dateSlots, hA, hB]

/-- C4 counterexample: constructing from the empty description does not fail
with InvalidArgument — the constructor performs no validation and happily
returns a record whose description is empty. -/
theorem claim4_counterexample :
    Todo.construct [] {} = { description := [] } := by decide

/-- C4 (amended): construction never fails; for every description — the empty
string included — it returns a record with `completion` defaulting to false
and each of priority, creationDate, completionDate and completion overridden
by the options when provided. -/
theorem claim4_construct (description : List Char) (opts : TodoOpts) :
    (Todo.construct description opts).description = description ∧
    (Todo.construct description opts).completion = opts.completion.getD false ∧
    (Todo.construct description opts).priority = opts.priority ∧
    (Todo.construct description opts).completionDate = opts.completionDate ∧
    (Todo.construct description opts).creationDate = opts.creationDate :=
  ⟨rfl, rfl, rfl, rfl, rfl⟩

theorem prefixOfB_iff {n t : List Char} :
    prefixOfB n t = true ↔ ∃ b, t = n ++ b := by
  induction n generalizing t with
  | nil => simp [prefixOfB]
  | cons a as ih =>
    cases t with
    | nil => simp [prefixOfB]
    | cons b bs =>
      simp only [prefixOfB, Bool.and_eq_true, decide_eq_true_eq, ih, List.cons_append,
        List.cons.injEq]
      constructor
      · rintro ⟨rfl, c, rfl⟩
        exact ⟨c, rfl, rfl⟩
      · rintro ⟨c, rfl, rfl⟩
        exact ⟨rfl, c, rfl⟩

theorem includesSub_iff {hay n : List Char} :
    includesSub hay n = true ↔ ∃ a b, hay = a ++ n ++ b := by
  unfold includesSub
  rw [List.any_eq_true]
  constructor
  · rintro ⟨t, ht, hp⟩
    obtain ⟨b, rfl⟩ := prefixOfB_iff.mp hp
    obtain ⟨a, rfl⟩ := (List.mem_tails _ _).mp ht
    exact ⟨a, b, by simp⟩
  · rintro ⟨a, b, rfl⟩
    refine ⟨n ++ b, ?_, prefixOfB_iff.mpr ⟨b, rfl⟩⟩
    rw [List.mem_tails, List.append_assoc]
    exact ⟨a, rfl⟩

/-- C5: the filter keeps an indexed pair exactly when (`all` is set OR the
record is not completed) AND (no filter strings were given OR some filter
string occurs literally in the description): as a single `filter` over the
input, and as a membership characterization. -/
theorem claim5_filter (all : Bool) (filters : List (List Char))
    (xs : List (Nat × Todo)) :
    filterTodos all filters xs =
      xs.filter (fun p => (all || !p.2.completion) &&
        (filters.isEmpty || filters.any (fun f => includesSub p.2.description f))) ∧
    (∀ i t, (i, t) ∈ filterTodos all filters xs ↔
      ((i, t) ∈ xs ∧ (all = true ∨ t.completion = false) ∧
        (filters = [] ∨ ∃ f ∈ filters, ∃ a b, t.description = a ++ f ++ b))) := by
  have hmain : filterTodos all filters xs =
      xs.filter (fun p => (all || !p.2.completion) &&
        (filters.isEmpty || filters.any (fun f => includesSub p.2.description f))) := by
    unfold filterTodos
    cases all <;> cases filters <;>
      simp [List.filter_filter, Bool.and_comm]
  refine ⟨hmain, ?_⟩
  intro i t
  rw [hmain, List.mem_filter]
  simp only [Bool.and_eq_true, Bool.or_eq_true, Bool.not_eq_true', List.isEmpty_iff,
    List.any_eq_true, includesSub_iff, decide_eq_true_eq]

/-- Witness for C5: with `all` unset and one filter string, the passes keep
exactly the non-completed record whose description contains the string, and
its membership follows from the characterization of `claim5_filter`. -/
theorem claim5_witness :
    filterTodos false [['a']]
        [(0, { description := ['b', 'a', 'd'] }),
         (1, { description := ['a'], completion := true }),
         (2, { description := ['c'] })] =
      [(0, { description := ['b', 'a', 'd'] })] ∧
    ((0, { description := ['b', 'a', 'd'] }) : Nat × Todo) ∈
      filterTodos false [['a']]
        [(0, { description := ['b', 'a', 'd'] }),
         (1, { description := ['a'], completion := true }),
         (2, { description := ['c'] })] := by
  refine ⟨by decide, ?_⟩
  have h := (claim5_filter false [['a']]
    [(0, { description := ['b', 'a', 'd'] }),
     (1, { description := ['a'], completion := true }),
     (2, { description := ['c'] })]).2 0 { description := ['b', 'a', 'd'] }
  exact h.mpr ⟨by decide, Or.inr rfl, Or.inr ⟨['a'], by decide, ['b'], ['d'], rfl⟩⟩

theorem load_records_eq (fname txt : List Char) :
    (Todo.load fname txt).1 = (splitNL txt).filterMap
      (fun l => if l = [] then none else Todo.deserialize l) := by
  unfold Todo.load
  dsimp only
  rw [List.filterMap_map]
  have hfun : (Prod.fst ∘ processLine fname) =
      (fun p : Nat × List Char => if p.2 = [] then none else Todo.deserialize p.2) := by
    funext p
    simp only [Function.comp_apply, processLine, List.isEmpty_iff]
    split
    · rfl
    · cases Todo.deserialize p.2 <;> rfl
  rw [hfun]
  have : (fun p : Nat × List Char => if p.2 = [] then none else Todo.deserialize p.2) =
      ((fun l => if l = [] then none else Todo.deserialize l) ∘ Prod.snd) := rfl
  rw [this, ← List.filterMap_map, List.enum_map_snd]

theorem load_warnings_eq (fname txt : List Char) :
    (Todo.load fname txt).2 = (splitNL txt).enum.filterMap
      (fun p => if p.2 = [] then none
        else if Todo.deserialize p.2 = none then some (p.1, fname) else none) := by
  unfold Todo.load
  dsimp only
  rw [List.filterMap_map]
  congr 1
  funext p
  simp only [Function.comp_apply, processLine, List.isEmpty_iff]
  split
  · rfl
  · cases h : Todo.deserialize p.2 <;> simp [h]

/-- C7: during load an empty line contributes neither a record nor a warning,
while every non-empty line that fails to parse contributes exactly one
warning carrying its line index and the source file name and no record;
processing is a total function of the text, so a failing line never aborts
the remaining lines. -/
theorem claim7_line_handling (fname txt : List Char) :
    (Todo.load fname txt).2 = (splitNL txt).enum.filterMap
      (fun p => if p.2 = [] then none
        else if Todo.deserialize p.2 = none then some (p.1, fname) else none) ∧
    (Todo.load fname txt).1 = (splitNL txt).filterMap
      (fun l => if l = [] then none else Todo.deserialize l) :=
  ⟨load_warnings_eq fname txt, load_records_eq fname txt⟩

/-- C8 counterexample: for the two-line resource text `"\na"` the loaded
collection holds the record of line 1 at collection index 0 — a record's
index in the result does not equal the original line position of its source
line when earlier lines are omitted. -/
theorem claim8_counterexample :
    ((Todo.load [] ('\n' :: ['a'])).1).get? 0 = some { description := ['a'] } ∧
    (splitNL ('\n' :: ['a'])).get? 0 = some [] ∧
    Todo.deserialize [] = none ∧
    (splitNL ('\n' :: ['a'])).get? 1 = some ['a'] := by decide

/-- C8 (amended): load fails with ResourceNotFound exactly on an absent
resource; on text it returns, in original line order, the records of the
non-empty parseable lines — positions are compacted over omitted blank or
non-parseable lines, so a record's collection index equals its line position
only when no earlier line was omitted. -/
theorem claim8_load (fname : List Char) :
    loadResource fname none = .error .resourceNotFound ∧
    (∀ txt, loadResource fname (some txt) = .ok (Todo.load fname txt) ∧
      (Todo.load fname txt).1 = (splitNL txt).filterMap
        (fun l => if l = [] then none else Todo.deserialize l)) :=
  ⟨rfl, fun txt => ⟨rfl, load_records_eq fname txt⟩⟩

theorem none_mem_compAlts (s : List Char) : (none, s) ∈ compAlts s := by
  unfold compAlts
  exact List.mem_append_right _ (by simp)

theorem none_mem_prioAlts (s : List Char) : (none, s) ∈ prioAlts s := by
  unfold prioAlts
  exact List.mem_append_right _ (by simp)

theorem none_mem_dateAlts (s : List Char) : (none, s) ∈ dateAlts s := by
  unfold dateAlts
  exact List.mem_append_right _ (by simp)

/-- C9 counterexample: a non-empty line containing a carriage return — as
every line of a CRLF resource has after splitting on `"\n"` — fails to match
(JS `.` does not match CR), so the ParseWarning branch of load is reachable
on non-empty lines. -/
theorem claim9_counterexample :
    Todo.deserialize ['a', '\r'] = none ∧
    (['a', '\r'] : List Char) ≠ [] ∧
    (Todo.load [] ('a' :: '\r' :: '\n' :: ['b'])).2 = [(0, [])] := by decide

/-- C9 (amended): on every non-empty line free of ECMAScript line terminators
(LF, CR, U+2028, U+2029) the pattern always matches — in the worst case every
group is skipped and the description captures the whole line — so
`deserialize` succeeds; consequently load emits no warnings for a resource
whose lines are all free of such characters. -/
theorem claim9_totality :
    (∀ s : List Char, s ≠ [] → (∀ c ∈ s, dotChar c = true) →
      ∃ t, Todo.deserialize s = some t) ∧
    (∀ fname txt : List Char,
      (∀ l, l ∈ splitNL txt → ∀ c, c ∈ l → dotChar c = true) →
      (Todo.load fname txt).2 = []) := by
  have hmain : ∀ s : List Char, s ≠ [] → (∀ c ∈ s, dotChar c = true) →
      ∃ t, Todo.deserialize s = some t := by
    intro s hne hdot
    cases hexec : execTodoPat s with
    | some g => exact ⟨Todo.fromGroups g, by simp [Todo.deserialize, hexec]⟩
    | none =>
      exfalso
      rw [execTodoPat, List.findSome?_eq_none_iff] at hexec
      have h1 : stage1 none s = none := hexec (none, s) (none_mem_compAlts s)
      rw [stage1, List.findSome?_eq_none_iff] at h1
      have h2 : stage2 none none s = none := h1 (none, s) (none_mem_prioAlts s)
      rw [stage2, List.findSome?_eq_none_iff] at h2
      have h3 : stage3 none none none s = none := h2 (none, s) (none_mem_dateAlts s)
      rw [stage3, List.findSome?_eq_none_iff] at h3
      have h4 : stage4 none none none none s = none := h3 (none, s) (none_mem_dateAlts s)
      rw [stage4] at h4
      split at h4
      · exact absurd h4 (by simp)
      · rename_i hd
        apply hd
        have hse : s.isEmpty = false := by
          cases s with
          | nil => exact absurd rfl hne
          | cons a b => rfl
        simp only [descOk, hse, Bool.not_false, Bool.true_and, List.all_eq_true]
        exact hdot
  refine ⟨hmain, ?_⟩
  intro fname txt hlines
  rw [load_warnings_eq, List.filterMap_eq_nil_iff]
  intro p hp
  have hmem : p.2 ∈ splitNL txt := by
    have := List.mem_map_of_mem Prod.snd hp
    rwa [List.enum_map_snd] at this
  by_cases hempty : p.2 = []
  · simp [hempty]
  · obtain ⟨t, ht⟩ := hmain p.2 hempty (fun c hc => hlines p.2 hmem c hc)
    simp [hempty, ht]

/-- Witness for C9 at a short terminator-free line and resource. -/
theorem claim9_witness :
    (∃ t, Todo.deserialize ['h', 'i'] = some t) ∧
    (Todo.load [] ('h' :: 'i' :: '\n' :: ['u'])).2 = [] :=
  ⟨claim9_totality.1 ['h', 'i'] (by decide) (by decide),
   claim9_totality.2 [] _ (by decide)⟩

theorem jsOr_lt_iff {a b : Int} : jsOr a b < 0 ↔ a < 0 ∨ (a = 0 ∧ b < 0) := by
  unfold jsOr
  split <;> omega

theorem jsOr_eq_zero_iff {a b : Int} : jsOr a b = 0 ↔ a = 0 ∧ b = 0 := by
  unfold jsOr
  split <;> omega

theorem jsOr_le_iff {a b : Int} : jsOr a b ≤ 0 ↔ a < 0 ∨ (a = 0 ∧ b ≤ 0) := by
  unfold jsOr
  split <;> omega

theorem compareVal_cases {α : Type} [LinearOrder α] (a b : α) :
    (a < b ∧ compareVal a b = -1) ∨ (a = b ∧ compareVal a b = 0) ∨
    (b < a ∧ compareVal a b = 1) := by
  unfold compareVal
  rcases lt_trichotomy a b with h | h | h
  · exact Or.inl ⟨h, if_pos h⟩
  · subst h
    exact Or.inr (Or.inl ⟨rfl, by rw [if_neg (lt_irrefl a), if_neg (lt_irrefl a)]⟩)
  · exact Or.inr (Or.inr ⟨h, by rw [if_neg (asymm h), if_pos h]⟩)

theorem compareVal_lt_iff {α : Type} [LinearOrder α] {a b : α} :
    compareVal a b < 0 ↔ a < b := by
  rcases compareVal_cases a b with ⟨h, e⟩ | ⟨h, e⟩ | ⟨h, e⟩ <;> rw [e]
  · exact iff_of_true (by decide) h
  · exact iff_of_false (by decide) (h ▸ lt_irrefl a)
  · exact iff_of_false (by decide) (asymm h)

theorem compareVal_eq_zero_iff {α : Type} [LinearOrder α] {a b : α} :
    compareVal a b = 0 ↔ a = b := by
  rcases compareVal_cases a b with ⟨h, e⟩ | ⟨h, e⟩ | ⟨h, e⟩ <;> rw [e]
  · exact iff_of_false (by decide) (ne_of_lt h)
  · exact iff_of_true rfl h
  · exact iff_of_false (by decide) (ne_of_gt h)

theorem compareVal_le_iff {α : Type} [LinearOrder α] {a b : α} :
    compareVal a b ≤ 0 ↔ a ≤ b := by
  rcases compareVal_cases a b with ⟨h, e⟩ | ⟨h, e⟩ | ⟨h, e⟩ <;> rw [e]
  · exact iff_of_true (by decide) (le_of_lt h)
  · exact iff_of_true (by decide) (le_of_eq h)
  · exact iff_of_false (by decide) (not_le.mpr h)

theorem compareVal_neg {α : Type} [LinearOrder α] (a b : α) :
    compareVal a b = -compareVal b a := by
  unfold compareVal
  rcases lt_trichotomy a b with h | h | h
  · rw [if_pos h, if_neg (asymm h), if_pos h]
  · subst h
    rw [if_neg (lt_irrefl a), if_neg (lt_irrefl a)]
    decide
  · rw [if_neg (asymm h), if_pos h, if_pos h]
    decide

theorem optLt_irrefl {α : Type} [LinearOrder α] (a : Option α) : ¬optLt a a := by
  cases a with
  | none => exact not_false
  | some a => exact lt_irrefl a

theorem compareOpt_lt_iff {α : Type} [LinearOrder α] {x y : Option α} :
    compareOpt x y < 0 ↔ optLt x y := by
  cases x <;> cases y
  · exact iff_of_false (show ¬(0 : Int) < 0 by decide) not_false
  · exact iff_of_true (show (-1 : Int) < 0 by decide) trivial
  · exact iff_of_false (show ¬(1 : Int) < 0 by decide) not_false
  · exact compareVal_lt_iff

theorem compareOpt_eq_zero_iff {α : Type} [LinearOrder α] {x y : Option α} :
    compareOpt x y = 0 ↔ x = y := by
  cases x <;> cases y
  · exact iff_of_true rfl rfl
  · exact iff_of_false (show ¬(-1 : Int) = 0 by decide) (by simp)
  · exact iff_of_false (show ¬(1 : Int) = 0 by decide) (by simp)
  · exact compareVal_eq_zero_iff.trans (by simp)

theorem compareOpt_neg {α : Type} [LinearOrder α] (x y : Option α) :
    compareOpt x y = -compareOpt y x := by
  cases x <;> cases y
  · exact (show (0 : Int) = -0 by decide)
  · exact (show (-1 : Int) = -1 by decide)
  · exact (show (1 : Int) = -(-1) by decide)
  · exact compareVal_neg _ _

theorem lawful_compareVal {α : Type} [LinearOrder α] :
    LawfulCmp (compareVal (α := α)) where
  neg := compareVal_neg
  lt_trans := by
    intro a b c h1 h2
    rw [compareVal_lt_iff] at h1 h2 ⊢
    exact lt_trans h1 h2
  eq_trans := by
    intro a b c h1 h2
    rw [compareVal_eq_zero_iff] at h1 h2 ⊢
    exact h1.trans h2
  eq_lt := by
    intro a b c h1 h2
    rw [compareVal_eq_zero_iff] at h1
    rw [compareVal_lt_iff] at h2 ⊢
    exact h1 ▸ h2
  lt_eq := by
    intro a b c h1 h2
    rw [compareVal_eq_zero_iff] at h2
    rw [compareVal_lt_iff] at h1 ⊢
    exact h2 ▸ h1

theorem lawful_compareOpt {α : Type} [LinearOrder α] :
    LawfulCmp (compareOpt (α := α)) where
  neg := compareOpt_neg
  lt_trans := by
    intro a b c h1 h2
    rw [compareOpt_lt_iff] at h1 h2 ⊢
    cases a <;> cases b <;> cases c <;> simp [optLt] at h1 h2 ⊢
    exact lt_trans h1 h2
  eq_trans := by
    intro a b c h1 h2
    rw [compareOpt_eq_zero_iff] at h1 h2 ⊢
    exact h1.trans h2
  eq_lt := by
    intro a b c h1 h2
    rw [compareOpt_eq_zero_iff] at h1
    rw [compareOpt_lt_iff] at h2 ⊢
    exact h1 ▸ h2
  lt_eq := by
    intro a b c h1 h2
    rw [compareOpt_eq_zero_iff] at h2
    rw [compareOpt_lt_iff] at h1 ⊢
    exact h2 ▸ h1

theorem LawfulCmp.comap {β γ : Type} {f : β → β → Int} (hf : LawfulCmp f)
    (g : γ → β) : LawfulCmp (fun a b => f (g a) (g b)) where
  neg _ _ := hf.neg _ _
  lt_trans h1 h2 := hf.lt_trans h1 h2
  eq_trans h1 h2 := hf.eq_trans h1 h2
  eq_lt h1 h2 := hf.eq_lt h1 h2
  lt_eq h1 h2 := hf.lt_eq h1 h2

theorem LawfulCmp.jsOrWith {β : Type} {f g : β → β → Int} (hf : LawfulCmp f)
    (hg : LawfulCmp g) : LawfulCmp (fun a b => jsOr (f a b) (g a b)) where
  neg a b := by
    by_cases h : f a b = 0
    · have h' : f b a = 0 := by
        have := hf.neg b a
        omega
      rw [jsOr, jsOr, if_pos h, if_pos h']
      exact hg.neg a b
    · have h' : f b a ≠ 0 := by
        have := hf.neg b a
        omega
      rw [jsOr, jsOr, if_neg h, if_neg h']
      exact hf.neg a b
  lt_trans := by
    intro a b c h1 h2
    rw [jsOr_lt_iff] at h1 h2 ⊢
    rcases h1 with h1 | ⟨h1, h1g⟩ <;> rcases h2 with h2 | ⟨h2, h2g⟩
    · exact Or.inl (hf.lt_trans h1 h2)
    · exact Or.inl (hf.lt_eq h1 h2)
    · exact Or.inl (hf.eq_lt h1 h2)
    · exact Or.inr ⟨hf.eq_trans h1 h2, hg.lt_trans h1g h2g⟩
  eq_trans := by
    intro a b c h1 h2
    rw [jsOr_eq_zero_iff] at h1 h2 ⊢
    exact ⟨hf.eq_trans h1.1 h2.1, hg.eq_trans h1.2 h2.2⟩
  eq_lt := by
    intro a b c h1 h2
    rw [jsOr_eq_zero_iff] at h1
    rw [jsOr_lt_iff] at h2 ⊢
    rcases h2 with h2 | ⟨h2, h2g⟩
    · exact Or.inl (hf.eq_lt h1.1 h2)
    · exact Or.inr ⟨hf.eq_trans h1.1 h2, hg.eq_lt h1.2 h2g⟩
  lt_eq := by
    intro a b c h1 h2
    rw [jsOr_eq_zero_iff] at h2
    rw [jsOr_lt_iff] at h1 ⊢
    rcases h1 with h1 | ⟨h1, h1g⟩
    · exact Or.inl (hf.lt_eq h1 h2.1)
    · exact Or.inr ⟨hf.eq_trans h1 h2.1, hg.lt_eq h1g h2.2⟩

theorem lawful_compareEntry : LawfulCmp compareEntry := by
  have h1 := (lawful_compareVal (α := Bool)).comap
    (fun x : Nat × Todo => x.2.completion)
  have h2 := (lawful_compareOpt (α := Char)).comap
    (fun x : Nat × Todo => x.2.priority)
  have h3 := (lawful_compareOpt (α := CivilDate)).comap
    (fun x : Nat × Todo => x.2.creationDate)
  have h4 := (lawful_compareVal (α := Nat)).comap (fun x : Nat × Todo => x.1)
  exact ((h1.jsOrWith h2).jsOrWith h3).jsOrWith h4

theorem entryLe_iff (x y : Nat × Todo) : entryLe x y ↔ entryKeyLe x y := by
  unfold entryLe compareEntry entryKeyLe
  simp only [jsOr_le_iff, jsOr_lt_iff, jsOr_eq_zero_iff, compareVal_lt_iff,
    compareVal_eq_zero_iff, compareVal_le_iff, compareOpt_lt_iff,
    compareOpt_eq_zero_iff]
  tauto

/-- C6: the sort used by the list command is a total-order sort by the fixed
key precedence completion, then priority (absent first), then creationDate
(absent first, present parsed dates in chronological order), then original
index: the comparator's nonstrict order coincides with that lexicographic
precedence, the output is a permutation of the input pairwise-sorted by it,
and hence two records equal on the three record keys appear in ascending
original-index order. -/
theorem claim6_sort (xs : List (Nat × Todo)) :
    List.Perm (sortTodos xs) xs ∧
    List.Pairwise entryLe (sortTodos xs) ∧
    (∀ x y, entryLe x y ↔ entryKeyLe x y) ∧
    List.Pairwise (fun x y : Nat × Todo =>
      x.2.completion = y.2.completion → x.2.priority = y.2.priority →
      x.2.creationDate = y.2.creationDate → x.1 ≤ y.1) (sortTodos xs) := by
  haveI : IsTotal (Nat × Todo) entryLe := by
    constructor
    intro x y
    have := lawful_compareEntry.neg x y
    unfold entryLe
    omega
  haveI : IsTrans (Nat × Todo) entryLe := by
    constructor
    intro a b c h1 h2
    unfold entryLe at h1 h2 ⊢
    rcases lt_or_eq_of_le h1 with h1' | h1' <;> rcases lt_or_eq_of_le h2 with h2' | h2'
    · exact le_of_lt (lawful_compareEntry.lt_trans h1' h2')
    · exact le_of_lt (lawful_compareEntry.lt_eq h1' h2')
    · exact le_of_lt (lawful_compareEntry.eq_lt h1' h2')
    · exact le_of_eq (lawful_compareEntry.eq_trans h1' h2')
  have hperm := List.perm_insertionSort entryLe xs
  have hsort := List.sorted_insertionSort entryLe xs
  refine ⟨hperm, hsort, entryLe_iff, ?_⟩
  refine hsort.imp ?_
  intro x y hxy h1 h2 h3
  have hkey := (entryLe_iff x y).mp hxy
  unfold entryKeyLe at hkey
  rcases hkey with h | ⟨-, hkey⟩
  · rw [h1] at h
    exact absurd h (lt_irrefl _)
  rcases hkey with h | ⟨-, hkey⟩
  · rw [h2] at h
    exact absurd h (optLt_irrefl _)
  rcases hkey with h | ⟨-, hkey⟩
  · rw [h3] at h
    exact absurd h (optLt_irrefl _)
  exact hkey

/-- Witness for C6: an incomplete record sorts before a completed one even
though its original index is larger; and the creationDate key compares the
parsed, normalized dates — the rolled-over token `2020-01-40` (February 9)
sorts after `2020-02-01`, as the program does, not in token text order. -/
theorem claim6_witness :
    sortTodos [(0, { description := ['b'], completion := true }),
      (1, { description := ['a'] })] =
      [(1, { description := ['a'] }),
        (0, { description := ['b'], completion := true })] ∧
    List.Pairwise entryLe (sortTodos [(0, { description := ['b'], completion := true }),
      (1, { description := ['a'] })]) ∧
    parseDateTok ((r"2020-01-40").toList) = ⟨2020, 2, 9⟩ ∧
    parseDateTok ((r"2020-02-01").toList) = ⟨2020, 2, 1⟩ ∧
    compareOpt (some (parseDateTok ((r"2020-01-40").toList)))
      (some (parseDateTok ((r"2020-02-01").toList))) = 1 ∧
    sortTodos
        [(0, ⟨['a'], false, none, none,
            some (parseDateTok ((r"2020-01-40").toList))⟩),
         (1, ⟨['b'], false, none, none,
            some (parseDateTok ((r"2020-02-01").toList))⟩)] =
      [(1, ⟨['b'], false, none, none,
          some (parseDateTok ((r"2020-02-01").toList))⟩),
       (0, ⟨['a'], false, none, none,
          some (parseDateTok ((r"2020-01-40").toList))⟩)] :=
  ⟨by decide,
   (claim6_sort [(0, { description := ['b'], completion := true }),
     (1, { description := ['a'] })]).2.1,
   by decide, by decide, by decide, by decide⟩

theorem splitLastColon_none {r : List Char} (h : splitLastColon r = none) :
    ∀ j, j + 1 < r.length → r.getD j ' ' ≠ ':' := by
  induction r with
  | nil => intro j hj; simp at hj
  | cons c rest ih =>
    rw [splitLastColon] at h
    cases hrec : splitLastColon rest with
    | some p =>
      obtain ⟨k0, v0⟩ := p
      rw [hrec] at h
      exact absurd h (by simp)
    | none =>
      rw [hrec] at h
      by_cases hcond : c = ':' ∧ rest ≠ []
      · rw [if_pos hcond] at h
        exact absurd h (by simp)
      · intro j hj
        cases j with
        | zero =>
          simp only [List.getD_cons_zero]
          intro hcc
          subst hcc
          simp only [List.length_cons] at hj
          exact hcond ⟨rfl, by intro hr; rw [hr] at hj; simp at hj⟩
        | succ j' =>
          simp only [List.getD_cons_succ]
          exact ih hrec j' (by simpa using hj)

theorem splitLastColon_eq_none_of {r : List Char}
    (h : ∀ j, j + 1 < r.length → r.getD j ' ' ≠ ':') : splitLastColon r = none := by
  induction r with
  | nil => rfl
  | cons c rest ih =>
    rw [splitLastColon]
    have hrec : splitLastColon rest = none := by
      apply ih
      intro j hj
      have := h (j + 1) (by simpa using hj)
      simpa using this
    rw [hrec]
    by_cases hr : rest = []
    · simp [hr]
    · have hc : c ≠ ':' := by
        have := h 0 (by simp [List.length_pos.mpr hr])
        simpa using this
      simp [hc]

theorem splitLastColon_some {r k v : List Char}
    (h : splitLastColon r = some (k, v)) :
    r = k ++ ':' :: v ∧ v ≠ [] ∧ ∀ j, j + 1 < v.length → v.getD j ' ' ≠ ':' := by
  induction r generalizing k v with
  | nil => exact absurd h (by simp [splitLastColon])
  | cons c rest ih =>
    rw [splitLastColon] at h
    cases hrec : splitLastColon rest with
    | some p =>
      obtain ⟨k', v'⟩ := p
      rw [hrec] at h
      simp only [Option.some.injEq, Prod.mk.injEq] at h
      obtain ⟨hk, hv⟩ := h
      subst hk
      subst hv
      obtain ⟨he, hne, hcol⟩ := ih hrec
      exact ⟨by rw [List.cons_append, ← he], hne, hcol⟩
    | none =>
      rw [hrec] at h
      by_cases hcond : c = ':' ∧ rest ≠ []
      · rw [if_pos hcond] at h
        simp only [Option.some.injEq, Prod.mk.injEq] at h
        obtain ⟨hk, hv⟩ := h
        subst hk
        subst hv
        exact ⟨by rw [hcond.1, List.nil_append], hcond.2, splitLastColon_none hrec⟩
      · rw [if_neg hcond] at h
        exact absurd h (by simp)

theorem splitLastColon_of {k v : List Char} (hv : v ≠ [])
    (hcol : ∀ j, j + 1 < v.length → v.getD j ' ' ≠ ':') :
    splitLastColon (k ++ ':' :: v) = some (k, v) := by
  induction k with
  | nil =>
    rw [List.nil_append, splitLastColon, splitLastColon_eq_none_of hcol]
    simp [hv]
  | cons a k' ih =>
    rw [List.cons_append, splitLastColon, ih]

theorem colonSplit_some {r k v : List Char} (h : colonSplit r = some (k, v)) :
    r = k ++ ':' :: v ∧ k ≠ [] ∧ v ≠ [] ∧
      ∀ j, j + 1 < v.length → v.getD j ' ' ≠ ':' := by
  unfold colonSplit at h
  cases hs : splitLastColon r with
  | none =>
    rw [hs] at h
    exact absurd h (by simp)
  | some p =>
    obtain ⟨k0, v0⟩ := p
    rw [hs] at h
    cases k0 with
    | nil => exact absurd h (by simp)
    | cons a k0' =>
      simp only [Option.some.injEq, Prod.mk.injEq] at h
      obtain ⟨hk, hv⟩ := h
      subst hk
      subst hv
      obtain ⟨he, hne, hcol⟩ := splitLastColon_some hs
      exact ⟨he, by simp, hne, hcol⟩

theorem getD_append_len (k v : List Char) (c : Char) :
    (k ++ c :: v).getD k.length ' ' = c := by
  induction k with
  | nil => simp
  | cons a k' ih => simpa using ih

theorem colonSplit_exists_iff {r : List Char} :
    (∃ e, colonSplit r = some e) ↔
      ∃ j, 1 ≤ j ∧ j + 1 < r.length ∧ r.getD j ' ' = ':' := by
  constructor
  · rintro ⟨⟨k, v⟩, he⟩
    obtain ⟨hr, hk, hv, -⟩ := colonSplit_some he
    refine ⟨k.length, ?_, ?_, ?_⟩
    · cases k with
      | nil => exact absurd rfl hk
      | cons a k' => simp
    · rw [hr]
      simp only [List.length_append, List.length_cons]
      have : 0 < v.length := List.length_pos.mpr hv
      omega
    · rw [hr]
      exact getD_append_len k v ':'
  · rintro ⟨j, hj1, hj2, hjc⟩
    cases hs : splitLastColon r with
    | none => exact absurd hjc (splitLastColon_none hs j hj2)
    | some p =>
      obtain ⟨k0, v0⟩ := p
      cases k0 with
      | nil =>
        obtain ⟨he, -, hcol⟩ := splitLastColon_some hs
        obtain ⟨j', rfl⟩ : ∃ j', j = j' + 1 := ⟨j - 1, by omega⟩
        rw [he] at hjc hj2
        simp only [List.nil_append, List.getD_cons_succ] at hjc
        simp only [List.nil_append, List.length_cons] at hj2
        exact absurd hjc (hcol j' (by omega))
      | cons a k0' =>
        refine ⟨(a :: k0', v0), ?_⟩
        unfold colonSplit
        rw [hs]

theorem colonSplit_eq_none_of {r : List Char}
    (h : ¬∃ j, 1 ≤ j ∧ j + 1 < r.length ∧ r.getD j ' ' = ':') :
    colonSplit r = none := by
  cases he : colonSplit r with
  | none => rfl
  | some e => exact absurd (colonSplit_exists_iff.mp ⟨e, he⟩) h

theorem takeWhile_dropWhile_nil {α : Type} (p : α → Bool) (l : List α) :
    (l.dropWhile p).takeWhile p = [] := by
  induction l with
  | nil => rfl
  | cons c t ih =>
    rw [List.dropWhile_cons]
    split
    · exact ih
    · rename_i hp
      simp [List.takeWhile_cons, hp]

theorem takeWhile_eq_nil_dropWhile {α : Type} {p : α → Bool} {t : List α}
    (h : t.takeWhile p = []) : t.dropWhile p = t := by
  conv_rhs => rw [← List.takeWhile_append_dropWhile (p := p) (l := t)]
  rw [h, List.nil_append]

theorem takeWhile_append_nil {α : Type} {p : α → Bool} {b : List α}
    (hb : b.takeWhile p = []) (a : List α) :
    (a ++ b).takeWhile p = a.takeWhile p := by
  induction a with
  | nil => simpa using hb
  | cons c t ih =>
    by_cases hc : p c
    · simp [List.takeWhile_cons, hc, ih]
    · simp [List.takeWhile_cons, hc]

theorem dropWhile_append_nil {α : Type} {p : α → Bool} {b : List α}
    (hb : b.takeWhile p = []) (a : List α) :
    (a ++ b).dropWhile p = a.dropWhile p ++ b := by
  induction a with
  | nil => simp [takeWhile_eq_nil_dropWhile hb]
  | cons c t ih =>
    by_cases hc : p c
    · simp [List.dropWhile_cons, hc, ih]
    · simp [List.dropWhile_cons, hc]

theorem metaScan_failed (w t : List Char) (hw : ∀ c ∈ w, nonWs c = true)
    (htw : t.takeWhile nonWs = [])
    (hcol : ∀ j, j + 1 < w.length → w.getD j ' ' ≠ ':') :
    metaScan (w ++ t) = metaScan t := by
  induction w with
  | nil => rw [List.nil_append]
  | cons a w' ih =>
    rw [List.cons_append, metaScan, if_pos (hw a (by simp))]
    have htk : (w' ++ t).takeWhile nonWs = w' := by
      rw [List.takeWhile_append_of_pos (fun c hc => hw c (by simp [hc])), htw,
        List.append_nil]
    rw [htk]
    have hnone : colonSplit (a :: w') = none := by
      apply colonSplit_eq_none_of
      rintro ⟨j, hj1, hj2, hjc⟩
      exact hcol j (by simpa using hj2) hjc
    rw [hnone]
    exact ih (fun c hc => hw c (by simp [hc]))
      (fun j hj => by
        have := hcol (j + 1) (by simpa using hj)
        simpa using this)

theorem metaScan_runs (s : List Char) :
    metaScan s = (splitRuns s).filterMap colonSplit := by
  cases s with
  | nil => rw [metaScan, splitRuns, List.filterMap_nil]
  | cons c rest =>
    by_cases hc : nonWs c = true
    · rw [metaScan, if_pos hc, splitRuns, if_pos hc]
      cases he : colonSplit (c :: rest.takeWhile nonWs) with
      | some e =>
        rw [List.filterMap_cons_some he,
          metaScan_runs (rest.dropWhile nonWs)]
      | none =>
        rw [List.filterMap_cons_none he, ← metaScan_runs (rest.dropWhile nonWs)]
        conv_lhs => rw [← List.takeWhile_append_dropWhile (p := nonWs) (l := rest)]
        apply metaScan_failed
        · exact fun d hd => List.mem_takeWhile_imp hd
        · exact takeWhile_dropWhile_nil nonWs rest
        · intro j hj hjc
          have hex : ∃ e, colonSplit (c :: rest.takeWhile nonWs) = some e :=
            colonSplit_exists_iff.mpr ⟨j + 1, by omega,
              by simp only [List.length_cons]; omega, by simpa using hjc⟩
          obtain ⟨e, he'⟩ := hex
          rw [he] at he'
          exact absurd he' (by simp)
    · rw [metaScan, if_neg hc, splitRuns, if_neg hc]
      exact metaScan_runs rest
termination_by s.length
decreasing_by
  · simp only [List.length_cons]
    exact Nat.lt_succ_of_le ((List.dropWhile_sublist _).length_le)
  · simp only [List.length_cons]
    exact Nat.lt_succ_of_le ((List.dropWhile_sublist _).length_le)
  · simp

theorem splitRuns_mem {s r : List Char} (h : r ∈ splitRuns s) :
    r ≠ [] ∧ ∀ c ∈ r, nonWs c = true := by
  suffices H : ∀ n (s : List Char), s.length ≤ n → ∀ r ∈ splitRuns s,
      r ≠ [] ∧ ∀ c ∈ r, nonWs c = true from H s.length s le_rfl r h
  intro n
  induction n with
  | zero =>
    intro s hs r hr
    have hnil : s = [] := List.eq_nil_of_length_eq_zero (by omega)
    rw [hnil, splitRuns] at hr
    exact absurd hr (by simp)
  | succ n ih =>
    intro s hs r hr
    cases s with
    | nil =>
      rw [splitRuns] at hr
      exact absurd hr (by simp)
    | cons c rest =>
      simp only [List.length_cons] at hs
      by_cases hc : nonWs c = true
      · rw [splitRuns, if_pos hc] at hr
        rcases List.mem_cons.mp hr with rfl | hr'
        · refine ⟨by simp, ?_⟩
          intro d hd
          rcases List.mem_cons.mp hd with rfl | hd'
          · exact hc
          · exact List.mem_takeWhile_imp hd'
        · exact ih (rest.dropWhile nonWs)
            (le_trans ((List.dropWhile_sublist _).length_le) (by omega)) r hr'
      · rw [splitRuns, if_neg hc] at hr
        exact ih rest (by omega) r hr

/-- `matchAll` tag scanning distributes over a whitespace boundary: when the
second part starts with whitespace (or is empty), no extraction crosses it,
so the tags of the whole are the tags of the parts in order. -/
theorem tagScan_append (mark : Char) {b : List Char}
    (hb : b.takeWhile nonWs = []) (a : List Char) :
    tagScan mark (a ++ b) = tagScan mark a ++ tagScan mark b := by
  suffices H : ∀ n (a : List Char), a.length ≤ n →
      tagScan mark (a ++ b) = tagScan mark a ++ tagScan mark b from
    H a.length a le_rfl
  intro n
  induction n with
  | zero =>
    intro a ha
    have hnil : a = [] := List.eq_nil_of_length_eq_zero (by omega)
    subst hnil
    simp [tagScan]
  | succ n ih =>
    intro a ha
    cases a with
    | nil => simp [tagScan]
    | cons c t =>
      simp only [List.length_cons] at ha
      rw [List.cons_append, tagScan, tagScan]
      by_cases hc : c = mark
      · rw [if_pos hc, if_pos hc, takeWhile_append_nil hb]
        by_cases hemp : t.takeWhile nonWs = []
        · rw [if_pos (show ((t.takeWhile nonWs).isEmpty = true) by
              rw [hemp]; rfl),
            if_pos (show ((t.takeWhile nonWs).isEmpty = true) by
              rw [hemp]; rfl)]
          exact ih t (by omega)
        · have hne : (t.takeWhile nonWs).isEmpty ≠ true := by
            simpa [List.isEmpty_iff] using hemp
          rw [if_neg hne, if_neg hne, dropWhile_append_nil hb,
            ih (t.dropWhile nonWs)
              (le_trans ((List.dropWhile_sublist _).length_le) (by omega)),
            List.cons_append]
      · rw [if_neg hc, if_neg hc]
        exact ih t (by omega)

/-- Generalized extraction: past any prefix whose marker occurrences all fail
to start a tag (each is followed, within the remainder of the line, by
whitespace), a marker occurrence followed by a non-whitespace run is
extracted as exactly that run. -/
theorem tagScan_extract (mark : Char) (pre tok rest : List Char)
    (hpre : ∀ a b, pre = a ++ mark :: b →
      (b ++ mark :: (tok ++ rest)).takeWhile nonWs = [])
    (hne : tok ≠ []) (hall : ∀ c ∈ tok, nonWs c = true)
    (hrest : rest.takeWhile nonWs = []) :
    tagScan mark (pre ++ mark :: (tok ++ rest)) = tok :: tagScan mark rest := by
  induction pre with
  | nil =>
    rw [List.nil_append, tagScan, if_pos rfl]
    have htk : (tok ++ rest).takeWhile nonWs = tok := by
      rw [List.takeWhile_append_of_pos hall, hrest, List.append_nil]
    rw [htk]
    have hdk : (tok ++ rest).dropWhile nonWs = rest := by
      rw [List.dropWhile_append_of_pos hall, takeWhile_eq_nil_dropWhile hrest]
    rw [hdk]
    have : tok.isEmpty = false := by
      cases tok with
      | nil => exact absurd rfl hne
      | cons a b => rfl
    rw [this]
    simp
  | cons p pre' ih =>
    rw [List.cons_append, tagScan]
    by_cases hp : p = mark
    · rw [if_pos hp]
      have hemp : (pre' ++ mark :: (tok ++ rest)).takeWhile nonWs = [] :=
        hpre [] pre' (by rw [List.nil_append, hp])
      rw [if_pos (show ((pre' ++ mark :: (tok ++ rest)).takeWhile nonWs).isEmpty
          = true by rw [hemp]; rfl)]
      exact ih (fun a b hab => hpre (p :: a) b (by rw [hab, List.cons_append]))
    · rw [if_neg hp]
      exact ih (fun a b hab => hpre (p :: a) b (by rw [hab, List.cons_append]))

/-- C10 counterexample: not every occurrence of `+` followed by non-whitespace
is extracted.  In `a+b+c` the occurrence at index 3 is followed by the
non-whitespace `c`, yet the only extracted project tag is `b+c` — the second
occurrence lies inside the first extracted tag and is consumed with it. -/
theorem claim10_counterexample :
    tagScan '+' ['a', '+', 'b', '+', 'c'] = [['b', '+', 'c']] ∧
    (['a', '+', 'b', '+', 'c'] : List Char).getD 3 ' ' = '+' ∧
    (['a', '+', 'b', '+', 'c'] : List Char).drop 4 = ['c'] ∧
    nonWs 'c' = true ∧
    (['c'] : List Char) ∉ tagScan '+' ['a', '+', 'b', '+', 'c'] := by
  have h : tagScan '+' ['a', '+', 'b', '+', 'c'] = [['b', '+', 'c']] := by
    simp [tagScan, List.takeWhile_cons, List.dropWhile_cons, nonWs, wsChar]
  refine ⟨h, by decide, by decide, by decide, ?_⟩
  rw [h]
  decide

/-- C10 (amended): tag extraction needs no token boundary, but occurrences
consumed by an earlier extracted tag are not extracted themselves: the scan
distributes over whitespace boundaries, and past any prefix whose marker
occurrences all fail to extract (each being followed by whitespace), a
marker occurrence followed by a non-whitespace run is extracted as that
entire run — so a mid-word occurrence is extracted (`a@b` yields context
`b`), and an occurrence after a failed marker is extracted (`+ +a` yields
project `a`).  Metadata extraction processes exactly the maximal
non-whitespace runs — a run yields an entry iff it contains a `:` with
non-whitespace on both sides, with the key extending greedily to the last
such `:` (so `http://x` yields key `http`). -/
theorem claim10_tags :
    (∀ (mark : Char) (pre tok rest : List Char),
      (∀ a b, pre = a ++ mark :: b →
        (b ++ mark :: (tok ++ rest)).takeWhile nonWs = []) → tok ≠ [] →
      (∀ c ∈ tok, nonWs c = true) → rest.takeWhile nonWs = [] →
      tagScan mark (pre ++ mark :: (tok ++ rest)) = tok :: tagScan mark rest) ∧
    (∀ (mark : Char) (a b : List Char), b.takeWhile nonWs = [] →
      tagScan mark (a ++ b) = tagScan mark a ++ tagScan mark b) ∧
    tagScan '@' ['a', '@', 'b'] = [['b']] ∧
    tagScan '+' ['+', ' ', '+', 'a'] = [['a']] ∧
    (∀ s, metaScan s = (splitRuns s).filterMap colonSplit) ∧
    (∀ s r : List Char, r ∈ splitRuns s → r ≠ [] ∧ ∀ c ∈ r, nonWs c = true) ∧
    (∀ r : List Char, (∃ e, colonSplit r = some e) ↔
      ∃ j, 1 ≤ j ∧ j + 1 < r.length ∧ r.getD j ' ' = ':') ∧
    (∀ r k v : List Char, colonSplit r = some (k, v) →
      r = k ++ ':' :: v ∧ k ≠ [] ∧ v ≠ [] ∧
        ∀ j, j + 1 < v.length → v.getD j ' ' ≠ ':') ∧
    metaScan ['h', 't', 't', 'p', ':', '/', '/', 'x'] =
      [(['h', 't', 't', 'p'], ['/', '/', 'x'])] := by
  refine ⟨tagScan_extract, fun mark a b hb => tagScan_append mark hb a, ?_, ?_,
    metaScan_runs, fun s r => splitRuns_mem, fun r => colonSplit_exists_iff,
    fun r k v => colonSplit_some, ?_⟩
  · simp [tagScan, List.takeWhile_cons, List.dropWhile_cons, nonWs, wsChar]
  · simp [tagScan, List.takeWhile_cons, List.dropWhile_cons, nonWs, wsChar]
  · simp [metaScan, colonSplit, splitLastColon, List.takeWhile_cons,
      List.dropWhile_cons, nonWs, wsChar]

/-- Witness for C10: in `+ +a` the first marker is followed by whitespace, so
it extracts nothing, and the generalized extraction lemma applies to the
second marker, yielding the project tag `a`. -/
theorem claim10_witness :
    tagScan '+' ['+', ' ', '+', 'a'] = [['a']] := by
  have hpre : ∀ a b : List Char, ['+', ' '] = a ++ '+' :: b →
      (b ++ '+' :: (['a'] ++ [])).takeWhile nonWs = [] := by
    intro a b hab
    rcases a with - | ⟨x, - | ⟨y, t⟩⟩
    · simp only [List.nil_append, List.cons.injEq] at hab
      rw [← hab.2]
      rfl
    · simp only [List.cons_append, List.nil_append, List.cons.injEq] at hab
      exact absurd hab.2.1 (by decide)
    · have hlen := congrArg List.length hab
      simp only [List.length_cons, List.length_append, List.length_nil] at hlen
      omega
  have h := claim10_tags.1 '+' ['+', ' '] ['a'] [] hpre (by decide) (by decide) rfl
  simpa [tagScan] using h

end TodoTxt
